import Mathlib

/-!
# mini-shell: a shallow embedding of `mini_shell.c`

C strings live in character arrays.  An array is a `List Char` (`Buf`), a
pointer into it is an offset, and the string a pointer denotes is the run of
characters from the offset up to the first NUL.  Every read or write outside
the array is undefined behaviour in C and gives the embedded function no
result (`none`, or `Outcome.undefined`).  Memory allocation is assumed to
succeed; text written with `printf` and `perror` is left out.
-/

namespace MiniShell

/-! ## Characters and arrays -/

/-- A character array. -/
abbrev Buf := List Char

/-- The string terminator. -/
def NUL : Char := Char.ofNat 0

/-- The double quote character. -/
def DQUOTE : Char := Char.ofNat 34

/-- The dollar sign. -/
def DOLLAR : Char := Char.ofNat 36

/-- The blank. -/
def SPACE : Char := Char.ofNat 32

def MAX_COMMAND_LENGTH : Nat := 511
def MAX_NUM_ARGS : Nat := 11
def MAX_NUM_COMMANDS : Nat := 11
def MAX_VAR_NAME_LENGTH : Nat := 100
def MAX_VAR_VALUE_LENGTH : Nat := 100

/-- The `isspace` of the C locale: blank, `\t`, `\n`, `\v`, `\f`, `\r`. -/
def isspace (c : Char) : Bool :=
  c.toNat == 32 || (9 ≤ c.toNat && c.toNat ≤ 13)

/-- The index loop `while (p b[k]) k++` started at `j`: the first index at or
after `j` whose character fails `p`; `none` when the loop runs off the array. -/
def scanWhile (p : Char → Bool) (b : Buf) (j : Nat) : Option Nat :=
  let n := ((b.drop j).takeWhile p).length
  if j + n < b.length then some (j + n) else none

/-- Length of the string at offset `off`, as `strlen(b + off)`. -/
def strlen (b : Buf) (off : Nat) : Option Nat :=
  (scanWhile (fun c => c != NUL) b off).map (fun e => e - off)

/-- The string at offset `off`: its characters up to the first NUL. -/
def cstr (b : Buf) (off : Nat) : List Char :=
  (b.drop off).takeWhile (fun c => c != NUL)

/-- Copy `n` characters inside one array, as `memmove(b + dst, b + src, n)`. -/
def memmove (b : Buf) (dst src n : Nat) : Option Buf :=
  if src + n ≤ b.length ∧ dst + n ≤ b.length then
    some (b.take dst ++ (b.drop src).take n ++ b.drop (dst + n))
  else none

/-- Copy the characters `src` from elsewhere into the array at `dst`, as
`memcpy(b + dst, src, src.length)`. -/
def memcpy (b : Buf) (dst : Nat) (src : List Char) : Option Buf :=
  if dst + src.length ≤ b.length then
    some (b.take dst ++ src ++ b.drop (dst + src.length))
  else none

/-- The store `b[i] = c`. -/
def poke (b : Buf) (i : Nat) (c : Char) : Option Buf :=
  if i < b.length then some (b.set i c) else none

/-! ## Variable store -/

/-- One entry of the `variables` array. -/
structure Variable where
  name : List Char
  value : List Char
deriving DecidableEq, Repr

/-- The function `assignVariable` (lines 55 to 73): the entry is written at index
`numOfVariables`, which is then incremented; no existing entry is examined.
The two `strcpy` calls fill arrays of 100 characters, so a name or value of
100 characters or more writes past its array.  The growth of the array with
`realloc` is not visible to a lookup. -/
def assignVariable (vars : List Variable) (name value : List Char) :
    Option (List Variable) :=
  if name.length < MAX_VAR_NAME_LENGTH ∧ value.length < MAX_VAR_VALUE_LENGTH then
    some (vars ++ [⟨name, value⟩])
  else none

/-- The function `getVariable` (lines 81 to 91): linear scan from index 0, the value of the
first entry whose name compares equal; `none` is the NULL result. -/
def getVariable : List Variable → List Char → Option (List Char)
  | [], _ => none
  | v :: rest, name => if v.name = name then some v.value else getVariable rest name

/-- Number of entries of the store whose name is `n`. -/
def countNamed (vars : List Variable) (n : List Char) : Nat :=
  (vars.filter (fun e => e.name = n)).length

/-! ## Variable expansion -/

/-- Characters the name scan of `replaceVariables` steps over. -/
def isNameChar (c : Char) : Bool :=
  c != NUL && c != DQUOTE && !isspace c

/-- Characters the blanking loop of `replaceVariables` overwrites. -/
def isBlanked (c : Char) : Bool :=
  c != SPACE && c != NUL

/-- The loop `while (input[i] != ' ' && input[i] != 0) input[i++] = ' '`
between its first index `i` and the index `e` at which it stops. -/
def blank (b : Buf) (i e : Nat) : Buf :=
  b.take i ++ List.replicate (e - i) SPACE ++ b.drop e

/-- The `for` loop of `replaceVariables` (lines 103 to 143), from index `i`.
Each unit of fuel is one iteration; the C `i += valueLength - 1` and the
loop's `++i` are taken together. -/
def replaceVariablesLoop (vars : List Variable) : Nat → Buf → Nat → Option Buf
  | 0, _, _ => none
  | fuel + 1, input, i =>
    match input[i]? with
    | none => none
    | some c =>
      if c = NUL then some input
      else if c = DOLLAR then
        match scanWhile isNameChar input (i + 1) with
        | none => none
        | some j =>
          let varLen := j - (i + 1)
          let temp := (input.drop (i + 1)).take varLen
          match getVariable vars temp with
          | some value =>
            let valueLength := value.length
            match strlen input j with
            | none => none
            | some n =>
              match memmove input (i + valueLength) j (n + 1) with
              | none => none
              | some input1 =>
                match memcpy input1 i value with
                | none => none
                | some input2 =>
                  replaceVariablesLoop vars fuel input2 (i + valueLength)
          | none =>
            match scanWhile isBlanked input i with
            | none => none
            | some e => replaceVariablesLoop vars fuel (blank input i e) (e + 1)
      else replaceVariablesLoop vars fuel input (i + 1)

/-- The function `replaceVariables` on the array `input`. -/
def replaceVariables (vars : List Variable) (fuel : Nat) (input : Buf) : Option Buf :=
  replaceVariablesLoop vars fuel input 0

/-! ## Statement splitting -/

/-- The semicolon. -/
def SEMI : Char := Char.ofNat 59

/-- The pipe sign. -/
def PIPE : Char := Char.ofNat 124

/-- The two `exit(EXIT_FAILURE)` paths of `extractCommands`. -/
inductive Fatal where
  | tooManyCommands
  | commandTooLong
deriving DecidableEq, Repr

/-- How a call ends: it returns, it terminates the process, it reads or writes
outside an array, or the fuel given to the model ran out first. -/
inductive Outcome (α : Type) where
  | ok (a : α)
  | fatal (e : Fatal)
  | undefined
  | outOfFuel
deriving DecidableEq, Repr

/-- What `extractCommands` leaves behind: `commands` are slots
`0 .. numberOfCommands - 1` of the array it was given (slot `numberOfCommands`
holds NULL, and the returned count is `commands.length`), `input` is the
array it scanned, with a NUL written over every separator it split at. -/
structure Extracted where
  commands : List (List Char)
  input : Buf
deriving DecidableEq, Repr

/-- The steps `command[j] = 0; if (strlen(command) > 0) commands[n++] = copy`
of `extractCommands`: `command` holds the `j` characters written to the
scratch array, and the copy stops at the first NUL among them.  A write at
index `MAX_COMMAND_LENGTH` of the scratch array or at index `MAX_NUM_COMMANDS`
of `commands` is outside the array. -/
def pushCommand (command : List Char) (commands : List (List Char)) :
    Option (List (List Char)) :=
  if command.length < MAX_COMMAND_LENGTH then
    let stmt := command.takeWhile (fun c => c != NUL)
    if stmt.length > 0 then
      if commands.length < MAX_NUM_COMMANDS then some (commands ++ [stmt]) else none
    else some commands
  else none

/-- The `while` loop of `extractCommands` and the code after it (lines 162 to
223).  One unit of fuel is one iteration.  `command` is the filled part of the
scratch array (`j` is its length), `commands` the filled part of the result
array. -/
def extractCommandsLoop : Nat → Buf → Nat → List Char → Bool → List (List Char) →
    Outcome Extracted
  | 0, _, _, _, _, _ => .outOfFuel
  | fuel + 1, input, i, command, inQuotes, commands =>
    match input[i]? with
    | none => .undefined
    | some c0 =>
      if c0 = NUL then
        match pushCommand command commands with
        | none => .undefined
        | some commands1 =>
          if commands1.length < MAX_NUM_COMMANDS then .ok ⟨commands1, input⟩
          else .undefined
      else
        let inQuotes1 := if c0 = DQUOTE then !inQuotes else inQuotes
        let i1 := if c0 = DQUOTE then i + 1 else i
        match input[i1]? with
        | none => .undefined
        | some c =>
          if c = SEMI ∧ inQuotes1 = false then
            match pushCommand command commands with
            | none => .undefined
            | some commands1 =>
              if commands1.length ≥ MAX_NUM_COMMANDS then .fatal .tooManyCommands
              else extractCommandsLoop fuel (input.set i1 NUL) (i1 + 1) [] inQuotes1 commands1
          else
            if command.length < MAX_COMMAND_LENGTH then
              if command.length + 1 ≥ MAX_COMMAND_LENGTH then .fatal .commandTooLong
              else extractCommandsLoop fuel input (i1 + 1) (command ++ [c]) inQuotes1 commands
            else .undefined

/-- The function `extractCommands` on the array `input`. -/
def extractCommands (fuel : Nat) (input : Buf) : Outcome Extracted :=
  extractCommandsLoop fuel input 0 [] false []

/-- The quote state the specification describes: it toggles at every double
quote, so position `k` of `s` is inside a quoted span when an odd number of
double quotes precede it. -/
def insideQuotes (s : List Char) (k : Nat) : Bool :=
  (s.take k).count DQUOTE % 2 == 1

/-- Number of semicolons of `s` outside the quoted spans of `insideQuotes`. -/
def unquotedSemicolons (s : List Char) : Nat :=
  ((List.range s.length).filter (fun k => s[k]? == some SEMI && !insideQuotes s k)).length

/-- The reference splitter of the specification: the segments between the
semicolons, in order, with the empty segments dropped. -/
def splitStatements (s : List Char) : List (List Char) :=
  (s.splitOn SEMI).filter (fun seg => !seg.isEmpty)

/-! ## Pipeline splitting -/

/-- The second `for` loop of `countPipes` (lines 285 to 308), with `n` iterations left: at a pipe
sign or at the terminator the characters from `start` to `i` are copied into
slot `j` of `commands`. -/
def countPipesLoop (input : Buf) : Nat → Nat → Nat → Nat → List (Option (List Char)) →
    Option (List (Option (List Char)))
  | 0, _, _, _, commands => some commands
  | n + 1, i, start, j, commands =>
    match input[i]? with
    | none => none
    | some c =>
      if c = PIPE ∨ c = NUL then
        if j < commands.length then
          countPipesLoop input n (i + 1) (i + 1) (j + 1)
            (commands.set j (some ((input.drop start).take (i - start))))
        else none
      else countPipesLoop input n (i + 1) start j commands

/-- The last loop of `countPipes`, `for (k = counter; k < MAX_NUM_COMMANDS; ++k)
commands[k] = NULL`, over the slots from index `k` on. -/
def clearFrom (counter : Nat) : Nat → List (Option (List Char)) → List (Option (List Char))
  | _, [] => []
  | k, x :: xs =>
    (if counter ≤ k ∧ k < MAX_NUM_COMMANDS then none else x) :: clearFrom counter (k + 1) xs

/-- The function `countPipes` (lines 268 to 316): the returned count and the `commands` array
(`none` is NULL).  The array passed in has `MAX_NUM_COMMANDS` slots. -/
def countPipes (input : Buf) (commands : List (Option (List Char))) :
    Option (Nat × List (Option (List Char))) :=
  match strlen input 0 with
  | none => none
  | some strLen =>
    let counter := (input.take strLen).count PIPE + 1
    match countPipesLoop input (strLen + 1) 0 0 0 commands with
    | none => none
    | some commands1 => some (counter - 1, clearFrom counter 0 commands1)

/-! ## Argument parsing -/

/-- The equals sign. -/
def EQUALS : Char := Char.ofNat 61

/-- The ampersand. -/
def AMP : Char := Char.ofNat 38

/-- The string `cd`. -/
def CD : List Char := [Char.ofNat 99, Char.ofNat 100]

/-- The call `strtok(.., d)` with a one-character delimiter string, resumed at
offset `start` (the saved pointer, or 0 for the first call on the array):
delimiters are skipped; at the terminator there is no token; otherwise the
token runs to the next delimiter, which is overwritten with NUL, or to the
terminator.  The result is the array, the token and the new saved pointer. -/
def strtok (b : Buf) (start : Nat) (d : Char) : Option (Buf × Option Nat × Nat) :=
  match scanWhile (fun c => c == d) b start with
  | none => none
  | some s =>
    match b[s]? with
    | none => none
    | some c =>
      if c = NUL then some (b, none, s)
      else
        match scanWhile (fun c => c != d && c != NUL) b s with
        | none => none
        | some e =>
          if b[e]? = some NUL then some (b, some s, e)
          else some (b.set e NUL, some s, e + 1)

/-- The call `strchr(b + off, ch)`: the offset of the first `ch` of the string
at `off`, inner `none` for NULL. -/
def strchr (b : Buf) (off : Nat) (ch : Char) : Option (Option Nat) :=
  match scanWhile (fun c => c != ch && c != NUL) b off with
  | none => none
  | some e => if b[e]? = some ch then some (some e) else some none

/-- The call `strcat(b + dst, lit)` with a string literal `lit`. -/
def strcatLit (b : Buf) (dst : Nat) (lit : List Char) : Option Buf :=
  match strlen b dst with
  | none => none
  | some n => memcpy b (dst + n) (lit ++ [NUL])

/-- The call `strcat(b + dst, b + src)` inside one array.  The characters are
copied front to back; when the end of the destination string lies at or below
the source this gives the source's characters even where the two ranges
overlap (C leaves the overlap undefined, every byte-wise or block-wise forward
copy behaves so).  A destination end inside the source string is not given a
result. -/
def strcat (b : Buf) (dst src : Nat) : Option Buf :=
  match strlen b dst, strlen b src with
  | some n, some m =>
    if dst + n ≤ src ∨ src + m < dst + n then memmove b (dst + n) src (m + 1) else none
  | _, _ => none

/-- The variables of `parseCommand` while its loop runs, with the globals it
touches: `args` is the caller's array of `MAX_NUM_ARGS` pointers (`none` is
NULL, a pointer is an offset into `command`), `save` is the saved pointer of
`strtok`. -/
structure ParseState where
  command : Buf
  args : List (Option Nat)
  i : Nat
  isInQuotes : Bool
  save : Nat
  vars : List Variable
  argCounter : Nat
deriving DecidableEq, Repr

/-- One pass through the body of the `while` loop of `parseCommand` for the
token at offset `tok`, from the test of `isInQuotes` up to, not including, the
next `strtok` call (lines 573 to 605). -/
def parseBody (st : ParseState) (tok : Nat) : Option ParseState := do
  let st1 : ParseState ←
    if st.isInQuotes then
      if st.i = 0 then none
      else
        match st.args[st.i - 1]? with
        | some (some dst) => do
          let b1 ← strcatLit st.command dst [SPACE]
          let b2 ← strcat b1 dst tok
          pure { st with command := b2 }
        | _ => none
    else
      match strchr st.command tok EQUALS with
      | none => none
      | some (some equals) => do
        let b1 ← poke st.command equals NUL
        let vars1 ← assignVariable st.vars (cstr b1 tok) (cstr b1 (equals + 1))
        pure { st with command := b1, vars := vars1 }
      | some none =>
        if st.i < st.args.length then
          pure { st with args := st.args.set st.i (some tok), i := st.i + 1,
                         argCounter := st.argCounter + 1 }
        else none
  let c0 ← st1.command[tok]?
  let st2 : ParseState ←
    if c0 = DQUOTE then do
      let n ← strlen st1.command tok
      let b ← memmove st1.command tok (tok + 1) n
      pure { st1 with isInQuotes := true, command := b }
    else pure st1
  let n ← strlen st2.command tok
  if tok + n = 0 then none
  else do
    let cl ← st2.command[tok + n - 1]?
    if cl = DQUOTE then do
      let b ← poke st2.command (tok + n - 1) NUL
      pure { st2 with isInQuotes := false, command := b }
    else pure st2

/-- The `while` loop of `parseCommand` (lines 556 to 614), entered at the
`strtok` call that produces the next token: `strtok(command, " ")` before the
loop is the call resumed at offset 0 with `isInQuotes` clear, the calls at the end of the body
are resumed at the saved pointer with the delimiter chosen by `isInQuotes`.
One unit of fuel is one token. -/
def parseLoop : Nat → ParseState → Outcome ParseState
  | 0, _ => .outOfFuel
  | fuel + 1, st =>
    match strtok st.command st.save (if st.isInQuotes then DQUOTE else SPACE) with
    | none => .undefined
    | some (b, none, sv) => .ok { st with command := b, save := sv }
    | some (b, some tok, sv) =>
      let st0 : ParseState := { st with command := b, save := sv }
      if cstr st0.command tok = CD then .ok st0
      else if st0.i ≥ MAX_NUM_ARGS then
        if 0 < st0.args.length then .ok { st0 with args := st0.args.set 0 none }
        else .undefined
      else
        match parseBody st0 tok with
        | none => .undefined
        | some st1 => parseLoop fuel st1

/-- What `parseCommand` leaves behind: the array of the stage, the `args`
array, the flag `*bg`, and the globals. -/
structure Parsed where
  command : Buf
  args : List (Option Nat)
  bg : Bool
  vars : List Variable
  argCounter : Nat
deriving DecidableEq, Repr

/-- The code of `parseCommand` after its loop (lines 616 to 622): the test of the last argument
for a trailing ampersand and the store `args[i] = NULL`. -/
def parseFinish (st : ParseState) (bg : Bool) : Outcome Parsed :=
  let amp : Option (Buf × Bool) :=
    if st.i > 0 then
      match st.args[st.i - 1]? with
      | none => none
      | some none => some (st.command, bg)
      | some (some p) =>
        match strlen st.command p with
        | none => none
        | some n =>
          if p + n = 0 then none
          else
            match st.command[p + n - 1]? with
            | none => none
            | some c =>
              if c = AMP then (poke st.command (p + n - 1) NUL).map (fun b => (b, true))
              else some (st.command, bg)
    else some (st.command, bg)
  match amp with
  | none => .undefined
  | some (b, bg1) =>
    if st.i < st.args.length then
      .ok ⟨b, st.args.set st.i none, bg1, st.vars, st.argCounter⟩
    else .undefined

/-- The function `parseCommand` on the array `command`, with the caller's
`args` array, the value of `*bg` on entry and the globals. -/
def parseCommand (fuel : Nat) (command : Buf) (args : List (Option Nat)) (bg : Bool)
    (vars : List Variable) (argCounter : Nat) : Outcome Parsed :=
  match parseLoop fuel ⟨command, args, 0, false, 0, vars, argCounter⟩ with
  | .ok st => parseFinish st bg
  | .fatal e => .fatal e
  | .undefined => .undefined
  | .outOfFuel => .outOfFuel

/-- The argument list `execvp` sees: the strings at the pointers of `args` up
to the first NULL. -/
def argv (p : Parsed) : List (List Char) :=
  (p.args.takeWhile (fun o => o.isSome)).filterMap (fun o => o.map (cstr p.command))

/-- The space-separated tokens of a stage. -/
def tokens (s : List Char) : List (List Char) :=
  (s.splitOn SPACE).filter (fun t => !t.isEmpty)

/-- The list `ts` with one trailing ampersand removed from its last element. -/
def stripAmp (ts : List (List Char)) : List (List Char) :=
  match ts.getLast? with
  | some t => if t.getLast? = some AMP then ts.dropLast ++ [t.dropLast] else ts
  | none => ts

/-- Whether the last element of `ts` ends with an ampersand. -/
def endsWithAmp (ts : List (List Char)) : Bool :=
  match ts.getLast? with
  | some t => t.getLast? == some AMP
  | none => false

/-- The value of a call that returned. -/
def Outcome.result {α : Type} : Outcome α → Option α
  | .ok a => some a
  | _ => none

/-! ## Redirection -/

/-- The greater-than sign. -/
def GT : Char := Char.ofNat 62

/-- The function `writeCommandToFile` (lines 248 to 258): the first index below `strlen(command)`
that holds a greater-than sign, and 0 when there is none. -/
def writeCommandToFile (command : Buf) : Option Nat :=
  match strlen command 0 with
  | none => none
  | some n =>
    let k := ((command.take n).takeWhile (fun c => c != GT)).length
    if k < n then some k else some 0

/-- The loop `while (i < k)` of `executeCommand` that fills `buff` (lines 445
to 453): `n` is `k - i`, the number of characters still to store, and the
second argument is the stage array from `executionCmdIndex` on.  Every character read that is not
a blank is stored; a read past the end of the array has no result. -/
def copyTarget : Nat → List Char → Option (List Char)
  | 0, _ => some []
  | _ + 1, [] => none
  | n + 1, c :: rest =>
    if c != SPACE then (copyTarget n rest).map (fun t => c :: t)
    else copyTarget (n + 1) rest

/-- The block of `executeCommand` under `if (redirIdx > 0)` (lines 439 to
457): the name handed to `open` (the string in `buff`, which is terminated at
index `k`) and the stage array with a NUL stored at `redirIdx`. -/
def redirect (command : Buf) (redirIdx : Nat) : Option (List Char × Buf) :=
  match strlen command 0 with
  | none => none
  | some len =>
    match copyTarget (len - redirIdx) (command.drop (redirIdx + 1)) with
    | none => none
    | some buff =>
      match poke command redirIdx NUL with
      | none => none
      | some command1 => some (buff.takeWhile (fun c => c != NUL), command1)

/-! ## Pipeline execution

System calls are recorded as a trace.  `pipe` and `dup2` are assumed to
succeed.  After `execvp` the process runs another program or, when the call
fails, exits: either way nothing more of this program runs in it. -/

/-- A file descriptor used by `executeCommand`: the entry of the `pipes` array
at an index, or the global `outputFileFd`. -/
inductive Fd where
  | pipe (idx : Nat)
  | outputFile
deriving DecidableEq, Repr

/-- The system calls of `runCommands` and `executeCommand`, in the order of
the source: `pipe(&pipes[2 * k])`, `kill(stp, SIGCONT)`, `open(buff, ..)`,
`signal(SIGTSTP, SIG_DFL)`, `dup2(fd, onto)` with `onto` 0 for standard input
and 1 for standard output, `setpgid(0, 0)`, `execvp(args[0], args)`,
`close(pipes[idx])` and `waitpid(pid, ..)`. -/
inductive Event where
  | pipe (k : Nat)
  | kill
  | openFile (name : List Char)
  | sigtstpDefault
  | dup2 (fd : Fd) (onto : Nat)
  | setpgid
  | execvp (argv : List (List Char))
  | close (idx : Nat)
  | waitpid
deriving DecidableEq, Repr

/-- The pointer `pipes` of `runCommands`: NULL, an array of `2 * numOfPipes`
descriptors, or a pointer to an array that `cleanUpResources` has freed. -/
inductive PipesPtr where
  | null
  | live
  | freed
deriving DecidableEq, Repr

/-- The read `pipes[idx]`: the array has `2 * numOfPipes` entries and must not
have been freed. -/
def pipeAt (numOfPipes : Nat) (pipes : PipesPtr) (idx : Nat) : Option Nat :=
  if pipes = .live ∧ idx < 2 * numOfPipes then some idx else none

/-- The `dup2` calls of the child branch of `executeCommand` for the stage at
index `j`, lines 465 to 504. -/
def childDups (numOfPipes : Nat) (pipes : PipesPtr) (redirIdx j : Nat) :
    Option (List Event) := do
  let wired : List Event ←
    if numOfPipes > 0 ∧ pipes ≠ .null then do
      let first : List Event := if redirIdx > 0 then [.dup2 .outputFile 1] else []
      if j = 0 then do
        let w ← pipeAt numOfPipes pipes 1
        pure (first ++ [.dup2 (.pipe w) 1])
      else if j = numOfPipes then do
        let r ← pipeAt numOfPipes pipes ((j - 1) * 2)
        pure (first ++ [.dup2 (.pipe r) 0])
      else do
        let r ← pipeAt numOfPipes pipes ((j - 1) * 2)
        let w ← pipeAt numOfPipes pipes (j * 2 + 1)
        pure (first ++ [.dup2 (.pipe r) 0, .dup2 (.pipe w) 1])
    else pure []
  pure (wired ++ (if redirIdx > 0 then [.dup2 .outputFile 1] else []))

/-- The `close` calls of the other branch of `executeCommand` for the stage at
index `j`, lines 519 to 534. -/
def parentCloses (numOfPipes : Nat) (pipes : PipesPtr) (j : Nat) : Option (List Event) := do
  if numOfPipes > 0 ∧ pipes ≠ .null then do
    let inner : List Event ←
      if j > 0 ∧ j < numOfPipes then do
        let r ← pipeAt numOfPipes pipes ((j - 1) * 2)
        let w ← pipeAt numOfPipes pipes (j * 2 + 1)
        pure [.close r, .close w]
      else pure []
    if j = 0 then do
      let w ← pipeAt numOfPipes pipes 1
      pure (inner ++ [.close w])
    else if j = numOfPipes then do
      let r ← pipeAt numOfPipes pipes ((j - 1) * 2)
      pure (inner ++ [.close r])
    else pure inner
  else pure []

/-- The arrays and globals `executeCommand` works on, with the trace of its
system calls: each entry of `commands` is a stage in an array of its own
(`none` is NULL), `running` is cleared when `execvp` is reached. -/
structure Exec where
  commands : List (Option Buf)
  args : List (Option Nat)
  vars : List Variable
  argCounter : Nat
  cmd : Nat
  trace : List Event
  running : Bool
deriving DecidableEq, Repr

/-- The string `bg`. -/
def BG : List Char := [Char.ofNat 98, Char.ofNat 103]

/-- The `while` loop of `executeCommand` (lines 429 to 542) from index `j`.  The global `pid` is
a parameter; it is the value `fork` returned in `main`.  One unit of fuel is
one stage; the same amount is handed to `parseCommand`. -/
def executeCommandLoop (pid : Int) (numOfPipes : Nat) (pipes : PipesPtr) (pfuel : Nat) :
    Nat → Nat → Exec → Outcome Exec
  | 0, _, _ => .outOfFuel
  | fuel + 1, j, st =>
    match st.commands[j]? with
    | none => .undefined
    | some none => .ok st
    | some (some command) =>
      if cstr command 0 = BG ∨ cstr command 0 = SPACE :: BG then
        executeCommandLoop pid numOfPipes pipes pfuel fuel (j + 1)
          { st with commands := st.commands.set j none, trace := st.trace ++ [.kill] }
      else
        match writeCommandToFile command with
        | none => .undefined
        | some redirIdx =>
          let redirected : Option (Buf × List Event) :=
            if redirIdx > 0 then
              (redirect command redirIdx).map (fun r => (r.2, [Event.openFile r.1]))
            else some (command, [])
          match redirected with
          | none => .undefined
          | some (command1, opened) =>
            match parseCommand pfuel command1 st.args false st.vars st.argCounter with
            | .fatal e => .fatal e
            | .undefined => .undefined
            | .outOfFuel => .outOfFuel
            | .ok p =>
              if pid = 0 then
                match childDups numOfPipes pipes redirIdx j with
                | none => .undefined
                | some dups =>
                  .ok { st with commands := st.commands.set j (some p.command),
                                args := p.args, vars := p.vars, argCounter := p.argCounter,
                                trace := st.trace ++ opened ++ [.sigtstpDefault] ++ dups
                                  ++ (if p.bg then [.setpgid] else []) ++ [.execvp (argv p)],
                                running := false }
              else
                match parentCloses numOfPipes pipes j with
                | none => .undefined
                | some closes =>
                  executeCommandLoop pid numOfPipes pipes pfuel fuel (j + 1)
                    { st with commands := st.commands.set j (some p.command),
                              args := p.args, vars := p.vars, argCounter := p.argCounter,
                              cmd := st.cmd + 1,
                              trace := st.trace ++ opened ++ closes
                                ++ (if p.bg then [] else [.waitpid]) }

/-- The function `executeCommand`. -/
def executeCommand (pid : Int) (numOfPipes : Nat) (pipes : PipesPtr) (fuel : Nat)
    (st : Exec) : Outcome Exec :=
  executeCommandLoop pid numOfPipes pipes fuel fuel 0 st

/-- The variables of `runCommands`: `array` holds the statements (`none` is
NULL), all entries of `array` below `freedBelow` have been passed to `free`. -/
structure Run where
  array : List (Option Buf)
  whileIndex : Nat
  freedBelow : Nat
  numOfPipes : Nat
  pipes : PipesPtr
  exec : Exec
deriving DecidableEq, Repr

/-- The call `countPipes(array[whileIndex], commands)` with the allocation of
the pipes that follows it in `runCommands`: every stage is copied into a new
array of its length plus one, and `pipes` is replaced when there is a pipe. -/
def splitStatement (stmt : Buf) (r : Run) : Option Run :=
  match countPipes stmt (r.exec.commands.map (fun o => o.map (fun b => cstr b 0))) with
  | none => none
  | some (n, stages) =>
    some { r with numOfPipes := n,
                  pipes := if n > 0 then .live else r.pipes,
                  exec := { r.exec with
                    commands := stages.map (fun o => o.map (fun t => t ++ [NUL])),
                    trace := r.exec.trace ++ (List.range n).map Event.pipe } }

/-- The function `cleanUpResources` (lines 671 to 681): `free(array[i])` for every `i` below
`whileIndex`, then `free(pipes)` unless it is NULL.  Freeing what has been
freed before is undefined.  The result is the new `freedBelow` and `pipes`. -/
def cleanUpResources (freedBelow whileIndex : Nat) (pipes : PipesPtr) :
    Option (Nat × PipesPtr) :=
  if 0 < freedBelow ∧ 0 < whileIndex then none
  else
    match pipes with
    | .null => some (whileIndex, .null)
    | .live => some (whileIndex, .freed)
    | .freed => none

/-- The `while` loop of `runCommands` (lines 389 to 411); its `j` is 0
throughout.  One unit of fuel is one iteration.  The loop ends early when
`executeCommand` has reached `execvp`. -/
def runCommandsLoop (pid : Int) (pfuel : Nat) : Nat → Run → Outcome Run
  | 0, _ => .outOfFuel
  | fuel + 1, r =>
    match r.array[r.whileIndex]? with
    | none => .undefined
    | some none => .ok r
    | some (some stmt) =>
      match r.exec.commands[0]? with
      | none => .undefined
      | some c0 =>
        match (if c0 = none then splitStatement stmt r else some r) with
        | none => .undefined
        | some r1 =>
          match executeCommand pid r1.numOfPipes r1.pipes pfuel r1.exec with
          | .fatal e => .fatal e
          | .undefined => .undefined
          | .outOfFuel => .outOfFuel
          | .ok e =>
            if e.running = false then .ok { r1 with exec := e }
            else
              match cleanUpResources r1.freedBelow (r1.whileIndex + 1) r1.pipes with
              | none => .undefined
              | some (freedBelow, pipes) =>
                runCommandsLoop pid pfuel fuel
                  { r1 with whileIndex := r1.whileIndex + 1, freedBelow := freedBelow,
                            pipes := pipes, exec := e }

/-- The function `runCommands`, with the global `pid` and the globals that
`parseCommand` touches; `commands` and `args` are the arrays of `main`. -/
def runCommands (pid : Int) (fuel : Nat) (array : List (Option Buf))
    (commands : List (Option Buf)) (args : List (Option Nat)) (vars : List Variable)
    (argCounter cmd : Nat) : Outcome Run :=
  match array[0]? with
  | some (some stmt) =>
    match splitStatement stmt
      ⟨array, 0, 0, 0, .null, ⟨commands, args, vars, argCounter, cmd, [], true⟩⟩ with
    | none => .undefined
    | some r => runCommandsLoop pid fuel fuel r
  | _ => .undefined

/-- The `array` of `main` after `extractCommands`: the statements, each in an
array of its length plus one, then NULL. -/
def arrayOf (e : Extracted) : List (Option Buf) :=
  e.commands.map (fun t => some (t ++ [NUL]))
    ++ List.replicate (MAX_NUM_COMMANDS - e.commands.length) none

/-- The programs a trace launches, in order. -/
def launched (trace : List Event) : List (List (List Char)) :=
  trace.filterMap (fun ev => match ev with
    | .execvp a => some a
    | _ => none)

/-- The statements and stages of an input line, in the order the
specification launches them: every stage of every statement. -/
def stagesOf (line : List Char) : List (List Char) :=
  (splitStatements line).flatMap (fun t => t.splitOn PIPE)

/-! ## Input -/

/-- The line feed. -/
def NEWLINE : Char := Char.ofNat 10

/-- The characters `fgets(input, n + 1, stdin)` takes from the stream: at most
`n`, ending after the first line feed.  None at the end of the stream. -/
def fgetsChunk : Nat → List Char → List Char
  | 0, _ => []
  | _ + 1, [] => []
  | n + 1, c :: rest => if c = NEWLINE then [c] else c :: fgetsChunk n rest

/-- What `handleInput` works on: the standard input still unread, the array
`input` of `main` and the counter `nullCommandCount`. -/
structure Session where
  stdin : List Char
  input : Buf
  nullCommandCount : Nat
deriving DecidableEq, Repr

/-- How `handleInput` ends: by `exit(EXIT_SUCCESS)` or by returning. -/
inductive Handled where
  | exitSuccess
  | returned (s : Session)
deriving DecidableEq, Repr

/-- The function `handleInput` (lines 327 to 357), `getcwd` being assumed to
succeed.  At the end of the stream `fgets` stores nothing and `input` keeps
what it held. -/
def handleInput (s : Session) : Option Handled := do
  let chunk := fgetsChunk (MAX_COMMAND_LENGTH + 4) s.stdin
  let input1 ← if chunk = [] then some s.input else memcpy s.input 0 (chunk ++ [NUL])
  let len ← strlen input1 0
  let input2 ←
    if len > MAX_COMMAND_LENGTH then
      if MAX_COMMAND_LENGTH ≤ input1.length then
        some (List.replicate MAX_COMMAND_LENGTH NUL ++ input1.drop MAX_COMMAND_LENGTH)
      else none
    else some input1
  let e ← scanWhile (fun c => c != NEWLINE && c != NUL) input2 0
  let input3 ← poke input2 e NUL
  let len3 ← strlen input3 0
  if len3 = 0 then
    if s.nullCommandCount + 1 = 3 then pure .exitSuccess
    else pure (.returned ⟨s.stdin.drop chunk.length, input3, s.nullCommandCount + 1⟩)
  else pure (.returned ⟨s.stdin.drop chunk.length, input3, 0⟩)

/-- Calls of `handleInput` one after the other, as the loop of `main` makes
them: the number of calls up to the one that exits and the input then still
unread; `none` when the fuel runs out first or a call has no result. -/
def readUntilExit : Nat → Session → Nat → Option (Nat × List Char)
  | 0, _, _ => none
  | fuel + 1, s, calls =>
    match handleInput s with
    | none => none
    | some .exitSuccess =>
      some (calls + 1, s.stdin.drop (fgetsChunk (MAX_COMMAND_LENGTH + 4) s.stdin).length)
    | some (.returned s1) => readUntilExit fuel s1 (calls + 1)

/-- The state `executeCommand` starts from when `countPipes` has split a
statement into `stages` and nothing was parsed before: no variable, counters
at 0, and every slot of `args` NULL (`main` clears slots 0 to 9; slot 10 is
written by `parseCommand` before anything reads it). -/
def freshExec (stages : List (List Char)) : Exec :=
  ⟨stages.map (fun t => some (t ++ [NUL]))
      ++ List.replicate (MAX_NUM_COMMANDS - stages.length) none,
    List.replicate MAX_NUM_ARGS none, [], 0, 0, [], true⟩

/-- The indices of `pipes` a trace closes, in order. -/
def closed (trace : List Event) : List Nat :=
  trace.filterMap (fun ev => match ev with
    | .close idx => some idx
    | _ => none)

/-- The names a trace opens, in order. -/
def opened (trace : List Event) : List (List Char) :=
  trace.filterMap (fun ev => match ev with
    | .openFile name => some name
    | _ => none)

/-- The standard input that holds the given lines, each ended by a line
feed. -/
def stdinOf (lines : List (List Char)) : List Char :=
  lines.flatMap (fun l => l ++ [NEWLINE])

/-- The counting of the specification: a line counts as empty when it is
empty or longer than `MAX_COMMAND_LENGTH`. -/
def countsAsEmpty (line : List Char) : Bool :=
  line.isEmpty || line.length > MAX_COMMAND_LENGTH

/-- The session of the specification on a sequence of lines, with the counter
at `count` and `k` lines read: the number of lines read when the third
consecutive line that counts as empty comes, `none` when it never comes. -/
def specExitAfter : List (List Char) → Nat → Nat → Option Nat
  | [], _, _ => none
  | l :: ls, count, k =>
    if countsAsEmpty l then
      if count + 1 = 3 then some (k + 1) else specExitAfter ls (count + 1) (k + 1)
    else specExitAfter ls 0 (k + 1)

/-- The tokens `ts` lie in the array `B` at the offsets `os`, in this order,
none before `base`, each followed by a NUL; `fin` is the offset just past the
NUL of the last one (`base` when there is none). -/
inductive Layout (B : Buf) : Nat → List Nat → List (List Char) → Nat → Prop where
  | nil (base : Nat) : Layout B base [] [] base
  | cons (base o : Nat) (t : List Char) (os : List Nat) (ts : List (List Char)) (fin : Nat)
      (x y : List Char) :
      base ≤ o → B = x ++ (t ++ NUL :: y) → x.length = o → NUL ∉ t →
      Layout B (o + t.length + 1) os ts fin → Layout B base (o :: os) (t :: ts) fin

/-! ## Array lemmas -/

theorem takeWhile_stop (p : Char → Bool) (m : List Char) (c : Char) (r : List Char)
    (hm : ∀ x ∈ m, p x = true) (hc : p c = false) :
    (m ++ c :: r).takeWhile p = m := by
  induction m with
  | nil => simp [List.takeWhile, hc]
  | cons x m ih =>
    have hx : p x = true := hm x (List.mem_cons_self x m)
    have hm2 : ∀ y ∈ m, p y = true := fun y hy => hm y (List.mem_cons_of_mem x hy)
    simp [List.takeWhile, hx, ih hm2]

theorem scanWhile_stop (p : Char → Bool) (a m : List Char) (c : Char) (r : List Char)
    (hm : ∀ x ∈ m, p x = true) (hc : p c = false) :
    scanWhile p (a ++ (m ++ c :: r)) a.length = some (a.length + m.length) := by
  unfold scanWhile
  simp only [List.drop_left, takeWhile_stop p m c r hm hc]
  simp

theorem strlen_stop (a m r : List Char) (hm : NUL ∉ m) :
    strlen (a ++ (m ++ NUL :: r)) a.length = some m.length := by
  unfold strlen
  rw [scanWhile_stop (fun c => c != NUL) a m NUL r]
  · simp
  · intro x hx
    have : x ≠ NUL := fun h => hm (h ▸ hx)
    simpa using this
  · simp

theorem cstr_stop (m r : List Char) (hm : NUL ∉ m) :
    cstr (m ++ NUL :: r) 0 = m := by
  unfold cstr
  rw [List.drop_zero, takeWhile_stop (fun c => c != NUL) m NUL r]
  · intro x hx
    have : x ≠ NUL := fun h => hm (h ▸ hx)
    simpa using this
  · simp

theorem getElem?_mid (a : List Char) (c : Char) (r : List Char) :
    (a ++ c :: r)[a.length]? = some c := by
  rw [List.getElem?_append_right (Nat.le_refl _)]
  simp

theorem getElem?_at (a : List Char) (c : Char) (r : List Char) (n : Nat)
    (hn : n = a.length) : (a ++ c :: r)[n]? = some c := by
  subst hn
  exact getElem?_mid a c r

theorem set_at (a : List Char) (c d : Char) (r : List Char) (n : Nat)
    (hn : n = a.length) : (a ++ c :: r).set n d = a ++ d :: r := by
  subst hn
  rw [List.set_append_right _ _ (Nat.le_refl _)]
  simp

/-! ## Lemmas on the expansion loop -/

theorem replaceVariablesLoop_skip (vars : List Variable) (fuel : Nat) (m : List Char) :
    ∀ (a r : List Char), (∀ x ∈ m, x ≠ NUL ∧ x ≠ DOLLAR) →
      replaceVariablesLoop vars (fuel + m.length) (a ++ (m ++ r)) a.length
        = replaceVariablesLoop vars fuel (a ++ (m ++ r)) (a.length + m.length) := by
  induction m with
  | nil => intro a r _; simp
  | cons x m ih =>
    intro a r hm
    have hx := hm x (List.mem_cons_self x m)
    have hm2 : ∀ y ∈ m, y ≠ NUL ∧ y ≠ DOLLAR :=
      fun y hy => hm y (List.mem_cons_of_mem x hy)
    have e1 : fuel + (x :: m).length = (fuel + m.length) + 1 := by simp; omega
    have e2 : a ++ (x :: m ++ r) = (a ++ [x]) ++ (m ++ r) := by simp
    rw [e1, replaceVariablesLoop]
    have hget : (a ++ (x :: m ++ r))[a.length]? = some x := getElem?_mid a x (m ++ r)
    simp only [hget, if_neg hx.1, if_neg hx.2]
    rw [e2]
    have := ih (a ++ [x]) r hm2
    simp only [List.length_append, List.length_singleton] at this
    rw [this]
    simp; congr 1; omega

theorem replaceVariablesLoop_skip_zero (vars : List Variable) (fuel : Nat) (m r : List Char)
    (hm : ∀ x ∈ m, x ≠ NUL ∧ x ≠ DOLLAR) :
    replaceVariablesLoop vars (fuel + m.length) (m ++ r) 0
      = replaceVariablesLoop vars fuel (m ++ r) m.length := by
  have := replaceVariablesLoop_skip vars fuel m [] r hm
  simpa using this

theorem memmove_memcpy_splice (a mid post v tail : List Char)
    (hfit : v.length ≤ mid.length + tail.length) :
    ∃ rest, (memmove (a ++ (mid ++ (post ++ NUL :: tail))) (a.length + v.length)
        (a.length + mid.length) (post.length + 1)).bind (fun b => memcpy b a.length v)
      = some (a ++ (v ++ (post ++ NUL :: rest)))
      ∧ (a ++ (v ++ (post ++ NUL :: rest))).length
          = (a ++ (mid ++ (post ++ NUL :: tail))).length := by
  set buf := a ++ (mid ++ (post ++ NUL :: tail)) with hbuf
  have hlen : buf.length = a.length + (mid.length + (post.length + (tail.length + 1))) := by
    simp [hbuf]
  have hsrc : (buf.drop (a.length + mid.length)).take (post.length + 1) = post ++ [NUL] := by
    have : buf = (a ++ mid) ++ (post ++ NUL :: tail) := by simp [hbuf]
    rw [this, show a.length + mid.length = (a ++ mid).length by simp, List.drop_left]
    have : post ++ NUL :: tail = (post ++ [NUL]) ++ tail := by simp
    rw [this, show post.length + 1 = (post ++ [NUL]).length by simp, List.take_left]
  refine ⟨buf.drop (a.length + v.length + (post.length + 1)), ?_, ?_⟩
  · unfold memmove
    rw [if_pos (by constructor <;> omega), Option.some_bind, hsrc]
    unfold memcpy
    have htk : (buf.take (a.length + v.length)).length = a.length + v.length := by
      rw [List.length_take]; omega
    rw [if_pos (by simp only [List.length_append, htk]; omega)]
    congr 1
    have h1 : (buf.take (a.length + v.length) ++ (post ++ [NUL])
        ++ buf.drop (a.length + v.length + (post.length + 1))).take a.length = a := by
      rw [List.append_assoc, List.take_append_of_le_length (by omega), List.take_take,
        Nat.min_eq_left (by omega), hbuf, List.take_left]
    have h2 : (buf.take (a.length + v.length) ++ (post ++ [NUL])
        ++ buf.drop (a.length + v.length + (post.length + 1))).drop (a.length + v.length)
        = (post ++ [NUL]) ++ buf.drop (a.length + v.length + (post.length + 1)) := by
      rw [List.append_assoc, List.drop_left' htk]
    rw [h1, h2]
    simp
  · simp only [List.length_append, List.length_cons, List.length_drop, hlen]
    omega

theorem replaceVariablesLoop_subst (vars : List Variable) (fuel : Nat)
    (pre name post v tail : List Char)
    (hrun : ∀ x ∈ name, isNameChar x = true)
    (hend : post = [] ∨ ∃ c r, post = c :: r ∧ isNameChar c = false)
    (hpost : NUL ∉ post)
    (hget : getVariable vars name = some v)
    (hfit : v.length ≤ 1 + name.length + tail.length) :
    ∃ rest,
      replaceVariablesLoop vars (fuel + 1)
          (pre ++ DOLLAR :: (name ++ (post ++ NUL :: tail))) pre.length
        = replaceVariablesLoop vars fuel (pre ++ (v ++ (post ++ NUL :: rest)))
            (pre.length + v.length)
      ∧ (pre ++ (v ++ (post ++ NUL :: rest))).length
          = (pre ++ DOLLAR :: (name ++ (post ++ NUL :: tail))).length := by
  obtain ⟨rest, hsp, hl⟩ :=
    memmove_memcpy_splice pre (DOLLAR :: name) post v tail (by simp; omega)
  obtain ⟨b1, hm1, hm2⟩ := Option.bind_eq_some.mp hsp
  refine ⟨rest, ?_, hl⟩
  have hstop : ∃ c r, post ++ NUL :: tail = c :: r ∧ isNameChar c = false := by
    rcases hend with h | ⟨c, r, h, hc⟩
    · exact ⟨NUL, tail, by simp [h], by decide⟩
    · exact ⟨c, r ++ NUL :: tail, by simp [h], hc⟩
  obtain ⟨c, r, hcr, hc⟩ := hstop
  have h0 : (pre ++ DOLLAR :: (name ++ (post ++ NUL :: tail)))[pre.length]? = some DOLLAR :=
    getElem?_mid pre DOLLAR _
  have hscan : scanWhile isNameChar (pre ++ DOLLAR :: (name ++ (post ++ NUL :: tail)))
      (pre.length + 1) = some (pre.length + 1 + name.length) := by
    have := scanWhile_stop isNameChar (pre ++ [DOLLAR]) name c r hrun hc
    rw [← hcr] at this
    simpa using this
  have htemp : ((pre ++ DOLLAR :: (name ++ (post ++ NUL :: tail))).drop (pre.length + 1)).take
      (pre.length + 1 + name.length - (pre.length + 1)) = name := by
    have e : pre ++ DOLLAR :: (name ++ (post ++ NUL :: tail))
        = (pre ++ [DOLLAR]) ++ (name ++ (post ++ NUL :: tail)) := by simp
    rw [e, List.drop_left' (by simp), Nat.add_sub_cancel_left, List.take_left]
  have hstr : strlen (pre ++ DOLLAR :: (name ++ (post ++ NUL :: tail)))
      (pre.length + 1 + name.length) = some post.length := by
    have := strlen_stop (pre ++ DOLLAR :: name) post tail hpost
    simpa [Nat.add_assoc, Nat.add_comm 1] using this
  have hm1b : memmove (pre ++ DOLLAR :: (name ++ (post ++ NUL :: tail)))
      (pre.length + v.length) (pre.length + 1 + name.length) (post.length + 1) = some b1 := by
    rw [← hm1]
    simp [Nat.add_assoc, Nat.add_comm 1]
  rw [replaceVariablesLoop]
  simp only [h0, hscan, htemp, hget, hstr, hm1b, hm2]
  simp [show DOLLAR ≠ NUL by decide]

/-! ## Lemmas on the variable store -/

theorem getVariable_append (s t : List Variable) (n : List Char) :
    getVariable (s ++ t) n = (getVariable s n).orElse (fun _ => getVariable t n) := by
  induction s with
  | nil => simp [getVariable]
  | cons e s ih =>
    by_cases h : e.name = n
    · simp [getVariable, h]
    · simp [getVariable, h, ih]

/-! ## Lemmas on statement splitting -/

theorem takeWhile_no_nul (l : List Char) (h : NUL ∉ l) :
    l.takeWhile (fun c => c != NUL) = l := by
  rw [List.takeWhile_eq_self_iff]
  intro x hx
  have : x ≠ NUL := fun e => h (e ▸ hx)
  simpa using this

theorem splitOnP_go_head_length (p : Char → Bool) (r : List Char) :
    ∀ acc : List Char, ∃ seg ∈ List.splitOnP.go p r acc, acc.length ≤ seg.length := by
  induction r with
  | nil => intro acc; exact ⟨acc.reverse, by simp [List.splitOnP.go], by simp⟩
  | cons c r ih =>
    intro acc
    by_cases hc : p c = true
    · exact ⟨acc.reverse, by simp [List.splitOnP.go, hc], by simp⟩
    · obtain ⟨seg, hseg, hl⟩ := ih (c :: acc)
      refine ⟨seg, by simpa [List.splitOnP.go, hc] using hseg, ?_⟩
      simp at hl
      omega

theorem pushCommand_plain (command : List Char) (done : List (List Char))
    (hn : NUL ∉ command) (hl : command.length < MAX_COMMAND_LENGTH)
    (hd : done.length + ([command].filter (fun seg => !seg.isEmpty)).length
      < MAX_NUM_COMMANDS + 1) :
    pushCommand command done = some (done ++ [command].filter (fun seg => !seg.isEmpty)) := by
  unfold pushCommand
  rw [if_pos hl, takeWhile_no_nul command hn]
  cases command with
  | nil => simp
  | cons c cs =>
    simp at hd
    simp
    omega

theorem extractCommandsLoop_plain (tail : List Char) (r : List Char) :
    ∀ (a command : List Char) (done : List (List Char)) (fuel : Nat),
      (∀ c ∈ r, c ≠ NUL ∧ c ≠ DQUOTE) → NUL ∉ command →
      (∀ seg ∈ List.splitOnP.go (fun c => c == SEMI) r command.reverse,
        seg.length < MAX_COMMAND_LENGTH) →
      done.length + ((List.splitOnP.go (fun c => c == SEMI) r command.reverse).filter
        (fun seg => !seg.isEmpty)).length < MAX_NUM_COMMANDS →
      r.length + 1 ≤ fuel →
      ∃ input1, extractCommandsLoop fuel (a ++ (r ++ NUL :: tail)) a.length command false done
        = .ok ⟨done ++ (List.splitOnP.go (fun c => c == SEMI) r command.reverse).filter
            (fun seg => !seg.isEmpty), input1⟩ := by
  induction r with
  | nil =>
    intro a command done fuel _ hn hseg hcount hfuel
    obtain ⟨f, rfl⟩ : ∃ f, fuel = f + 1 := ⟨fuel - 1, by simp at hfuel; omega⟩
    simp only [List.splitOnP.go, List.reverse_reverse] at hseg hcount ⊢
    have hl : command.length < MAX_COMMAND_LENGTH := hseg command (by simp)
    have hp := pushCommand_plain command done hn hl (by omega)
    rw [extractCommandsLoop]
    have hg : (a ++ ([] ++ NUL :: tail))[a.length]? = some NUL := getElem?_mid a NUL tail
    simp only [hg, if_true, hp]
    rw [if_pos (by simpa using hcount)]
    exact ⟨_, rfl⟩
  | cons c r ih =>
    intro a command done fuel hr hn hseg hcount hfuel
    obtain ⟨f, rfl⟩ : ∃ f, fuel = f + 1 := ⟨fuel - 1, by simp at hfuel; omega⟩
    have hc := hr c (List.mem_cons_self c r)
    have hr2 : ∀ x ∈ r, x ≠ NUL ∧ x ≠ DQUOTE := fun x hx => hr x (List.mem_cons_of_mem c hx)
    have hg : (a ++ (c :: r ++ NUL :: tail))[a.length]? = some c := getElem?_mid a c _
    have hbuf : a ++ (c :: r ++ NUL :: tail) = (a ++ [c]) ++ (r ++ NUL :: tail) := by simp
    have hfuel2 : r.length + 1 ≤ f := by simp at hfuel; omega
    rw [extractCommandsLoop]
    simp only [hg, if_neg hc.1, if_neg hc.2]
    by_cases hs : c = SEMI
    · subst hs
      have hgo : List.splitOnP.go (fun c => c == SEMI) (SEMI :: r) command.reverse
          = command :: List.splitOnP.go (fun c => c == SEMI) r [] := by
        simp [List.splitOnP.go]
      rw [hgo] at hseg hcount ⊢
      have hl : command.length < MAX_COMMAND_LENGTH := hseg command (by simp)
      have hcount2 : done.length + ([command].filter (fun seg => !seg.isEmpty)).length
          + ((List.splitOnP.go (fun c => c == SEMI) r []).filter
              (fun seg => !seg.isEmpty)).length < MAX_NUM_COMMANDS := by
        rw [show command :: List.splitOnP.go (fun c => c == SEMI) r []
          = [command] ++ List.splitOnP.go (fun c => c == SEMI) r [] by rfl,
          List.filter_append, List.length_append] at hcount
        omega
      have hp := pushCommand_plain command done hn hl (by omega)
      have hset : (a ++ (SEMI :: r ++ NUL :: tail)).set a.length NUL
          = (a ++ [NUL]) ++ (r ++ NUL :: tail) := by
        rw [List.set_append_right _ _ (Nat.le_refl _)]
        simp
      obtain ⟨input1, h1⟩ := ih (a ++ [NUL]) []
        (done ++ [command].filter (fun seg => !seg.isEmpty)) f hr2 (by simp)
        (fun seg hseg2 => hseg seg (List.mem_cons_of_mem _ hseg2))
        (by simpa [List.length_append] using hcount2) hfuel2
      refine ⟨input1, ?_⟩
      rw [if_pos ⟨rfl, trivial⟩]
      simp only [hp, hset]
      have hlt : ¬ ((done ++ [command].filter (fun seg => !seg.isEmpty)).length
          ≥ MAX_NUM_COMMANDS) := by
        simp only [List.length_append]; omega
      rw [if_neg hlt]
      have e : (a ++ [NUL]).length = a.length + 1 := by simp
      rw [e] at h1
      rw [h1]
      simp [List.filter_cons]
      split <;> simp
    · have hgo : List.splitOnP.go (fun c => c == SEMI) (c :: r) command.reverse
          = List.splitOnP.go (fun c => c == SEMI) r (command ++ [c]).reverse := by
        simp [List.splitOnP.go, hs]
      rw [hgo] at hseg hcount ⊢
      obtain ⟨seg, hmem, hlen⟩ :=
        splitOnP_go_head_length (fun c => c == SEMI) r (command ++ [c]).reverse
      have hl := hseg seg hmem
      simp at hlen
      obtain ⟨input1, h1⟩ := ih (a ++ [c]) (command ++ [c]) done f hr2
        (by simp only [List.mem_append, List.mem_singleton, not_or]
            exact ⟨hn, fun e => hc.1 e.symm⟩)
        hseg hcount hfuel2
      refine ⟨input1, ?_⟩
      have e : (a ++ [c]).length = a.length + 1 := by simp
      rw [e, ← hbuf] at h1
      have hns : ¬ (c = SEMI ∧ True) := fun h => hs h.1
      rw [if_neg hns, if_pos (by omega), if_neg (by omega), h1]

/-! ## Lemmas on pipeline splitting -/

theorem splitOnP_go_length (p : Char → Bool) (r : List Char) :
    ∀ acc : List Char, (List.splitOnP.go p r acc).length = r.countP p + 1 := by
  induction r with
  | nil => intro acc; simp [List.splitOnP.go]
  | cons c r ih =>
    intro acc
    by_cases hc : p c = true
    · simp [List.splitOnP.go, hc, ih]
    · simp [List.splitOnP.go, hc, ih]

theorem countPipesLoop_spec (tail : List Char) (r : List Char) :
    ∀ (a p : List Char) (front back : List (Option (List Char))),
      (∀ c ∈ r, c ≠ NUL) →
      (List.splitOnP.go (fun c => c == PIPE) r p.reverse).length ≤ back.length →
      countPipesLoop (a ++ (p ++ (r ++ NUL :: tail))) (r.length + 1)
          (a.length + p.length) a.length front.length (front ++ back)
        = some (front ++ (List.splitOnP.go (fun c => c == PIPE) r p.reverse).map some
            ++ back.drop (List.splitOnP.go (fun c => c == PIPE) r p.reverse).length) := by
  induction r with
  | nil =>
    intro a p front back _ hlen
    simp only [List.splitOnP.go, List.reverse_reverse, List.length_singleton] at hlen ⊢
    obtain ⟨y, back1, rfl⟩ : ∃ y back1, back = y :: back1 := by
      cases back with
      | nil => simp at hlen
      | cons y b => exact ⟨y, b, rfl⟩
    have hg : (a ++ (p ++ ([] ++ NUL :: tail)))[a.length + p.length]? = some NUL := by
      have := getElem?_mid (a ++ p) NUL tail
      simpa using this
    have hseg : ((a ++ (p ++ ([] ++ NUL :: tail))).drop a.length).take
        (a.length + p.length - a.length) = p := by
      rw [List.drop_left, Nat.add_sub_cancel_left, List.take_left]
    rw [countPipesLoop]
    simp only [hg, hseg]
    rw [if_pos (Or.inr trivial), if_pos (by simp)]
    simp [countPipesLoop]
  | cons c r ih =>
    intro a p front back hr hlen
    have hc : c ≠ NUL := hr c (List.mem_cons_self c r)
    have hr2 : ∀ x ∈ r, x ≠ NUL := fun x hx => hr x (List.mem_cons_of_mem c hx)
    have hg : (a ++ (p ++ (c :: r ++ NUL :: tail)))[a.length + p.length]? = some c := by
      have := getElem?_mid (a ++ p) c (r ++ NUL :: tail)
      simpa using this
    have hseg : ((a ++ (p ++ (c :: r ++ NUL :: tail))).drop a.length).take
        (a.length + p.length - a.length) = p := by
      rw [List.drop_left, Nat.add_sub_cancel_left, List.take_left]
    rw [show (c :: r).length + 1 = (r.length + 1) + 1 by simp, countPipesLoop]
    simp only [hg, hseg]
    by_cases hp : c = PIPE
    · subst hp
      have hgo : List.splitOnP.go (fun c => c == PIPE) (PIPE :: r) p.reverse
          = p :: List.splitOnP.go (fun c => c == PIPE) r ([] : List Char).reverse := by
        simp [List.splitOnP.go]
      rw [hgo] at hlen ⊢
      obtain ⟨y, back1, rfl⟩ : ∃ y back1, back = y :: back1 := by
        cases back with
        | nil => simp at hlen
        | cons y b => exact ⟨y, b, rfl⟩
      have hbuf : a ++ (p ++ (PIPE :: r ++ NUL :: tail))
          = (a ++ (p ++ [PIPE])) ++ ([] ++ (r ++ NUL :: tail)) := by simp
      have h := ih (a ++ (p ++ [PIPE])) [] (front ++ [some p]) back1 hr2
        (by simpa using hlen)
      rw [← hbuf] at h
      simp only [List.length_append, List.length_singleton, List.length_nil,
        Nat.add_zero] at h
      rw [if_pos (Or.inl rfl), if_pos (by simp)]
      have hset : (front ++ y :: back1).set front.length (some p)
          = front ++ [some p] ++ back1 := by
        rw [List.set_append_right _ _ (Nat.le_refl _)]
        simp
      rw [hset, Nat.add_assoc, h]
      simp
    · have hgo : List.splitOnP.go (fun c => c == PIPE) (c :: r) p.reverse
          = List.splitOnP.go (fun c => c == PIPE) r (p ++ [c]).reverse := by
        simp [List.splitOnP.go, hp]
      rw [hgo] at hlen ⊢
      have hbuf : a ++ (p ++ (c :: r ++ NUL :: tail))
          = a ++ ((p ++ [c]) ++ (r ++ NUL :: tail)) := by simp
      have h := ih a (p ++ [c]) front back hr2 hlen
      rw [← hbuf] at h
      simp only [List.length_append, List.length_singleton] at h
      have hnot : ¬ (c = PIPE ∨ c = NUL) := fun h => h.elim hp hc
      rw [if_neg hnot, Nat.add_assoc, h]

theorem clearFrom_keep (counter : Nat) (l : List (Option (List Char))) :
    ∀ k, k + l.length ≤ counter → clearFrom counter k l = l := by
  induction l with
  | nil => intro k _; rfl
  | cons x xs ih =>
    intro k hk
    simp only [List.length_cons] at hk
    rw [clearFrom, ih (k + 1) (by omega), if_neg (by omega)]

theorem clearFrom_clear (counter : Nat) (l : List (Option (List Char))) :
    ∀ k, counter ≤ k → k + l.length ≤ MAX_NUM_COMMANDS →
      clearFrom counter k l = List.replicate l.length none := by
  induction l with
  | nil => intro k _ _; rfl
  | cons x xs ih =>
    intro k hk hl
    simp only [List.length_cons] at hl
    rw [clearFrom, ih (k + 1) (by omega) (by omega), if_pos ⟨hk, by omega⟩]
    rfl

theorem clearFrom_append (counter : Nat) (l1 l2 : List (Option (List Char))) :
    ∀ k, clearFrom counter k (l1 ++ l2)
      = clearFrom counter k l1 ++ clearFrom counter (k + l1.length) l2 := by
  induction l1 with
  | nil => intro k; simp [clearFrom]
  | cons x xs ih =>
    intro k
    have e : k + 1 + xs.length = k + (xs.length + 1) := by omega
    have h := ih (k + 1)
    rw [e] at h
    simp only [List.cons_append, clearFrom, List.length_cons]
    exact congrArg _ h

/-! ## Lemmas on argument parsing -/

theorem strtok_none (a g r : List Char) (hg : ∀ c ∈ g, c = SPACE) :
    strtok (a ++ (g ++ NUL :: r)) a.length SPACE
      = some (a ++ (g ++ NUL :: r), none, a.length + g.length) := by
  have h1 : scanWhile (fun c => c == SPACE) (a ++ (g ++ NUL :: r)) a.length
      = some (a.length + g.length) :=
    scanWhile_stop _ a g NUL r (fun x hx => by simp [hg x hx]) (by decide)
  have h2 : (a ++ (g ++ NUL :: r))[a.length + g.length]? = some NUL := by
    have := getElem?_mid (a ++ g) NUL r
    simpa using this
  unfold strtok
  simp only [h1, h2, if_true]

theorem strtok_token (a g t r : List Char) (c : Char) (hg : ∀ x ∈ g, x = SPACE)
    (ht : t ≠ []) (hts : ∀ x ∈ t, x ≠ SPACE ∧ x ≠ NUL) (hc : c = SPACE ∨ c = NUL) :
    strtok (a ++ (g ++ (t ++ c :: r))) a.length SPACE
      = some (a ++ (g ++ (t ++ NUL :: r)), some (a.length + g.length),
          a.length + g.length + t.length + (if c = NUL then 0 else 1)) := by
  obtain ⟨x, t1, rfl⟩ : ∃ x t1, t = x :: t1 := by
    cases t with
    | nil => exact absurd rfl ht
    | cons x t1 => exact ⟨x, t1, rfl⟩
  have hx := hts x (List.mem_cons_self x t1)
  have h1 : scanWhile (fun c => c == SPACE) (a ++ (g ++ (x :: t1 ++ c :: r))) a.length
      = some (a.length + g.length) :=
    scanWhile_stop _ a g x (t1 ++ c :: r) (fun y hy => by simp [hg y hy]) (by simp [hx.1])
  have h2 : (a ++ (g ++ (x :: t1 ++ c :: r)))[a.length + g.length]? = some x := by
    have := getElem?_mid (a ++ g) x (t1 ++ c :: r)
    simpa using this
  have h3 : scanWhile (fun c => c != SPACE && c != NUL) (a ++ (g ++ (x :: t1 ++ c :: r)))
      (a.length + g.length) = some (a.length + g.length + (x :: t1).length) := by
    have := scanWhile_stop (fun c => c != SPACE && c != NUL) (a ++ g) (x :: t1) c r
      (fun y hy => by simp [(hts y hy).1, (hts y hy).2])
      (by rcases hc with h | h <;> simp [h])
    simpa using this
  have e : a ++ (g ++ (x :: t1 ++ c :: r)) = (a ++ g ++ (x :: t1)) ++ c :: r := by simp
  have h4 : (a ++ (g ++ (x :: t1 ++ c :: r)))[a.length + g.length + (x :: t1).length]?
      = some c := by
    rw [e]
    exact getElem?_at _ _ _ _ (by simp only [List.length_append])
  have h5 : (a ++ (g ++ (x :: t1 ++ c :: r))).set (a.length + g.length + (x :: t1).length) NUL
      = a ++ (g ++ (x :: t1 ++ NUL :: r)) := by
    rw [e, set_at _ _ _ _ _ (by simp only [List.length_append])]
    simp
  unfold strtok
  simp only [h1, h2, if_neg hx.2, h3, h4, h5]
  by_cases hn : c = NUL
  · subst hn; simp
  · simp [hn]

theorem getElem?_inner (x t r : List Char) (k : Nat) (hk : k < t.length) :
    ∃ c, (x ++ (t ++ r))[x.length + k]? = some c ∧ c ∈ t := by
  refine ⟨t[k], ?_, List.getElem_mem hk⟩
  rw [List.getElem?_append_right (by omega), Nat.add_sub_cancel_left,
    List.getElem?_append_left hk, List.getElem?_eq_getElem hk]

theorem parseBody_plain (st : ParseState) (x t y : List Char)
    (hcmd : st.command = x ++ (t ++ NUL :: y)) (hq : st.isInQuotes = false)
    (ht : t ≠ []) (hp : ∀ c ∈ t, c ≠ NUL ∧ c ≠ EQUALS ∧ c ≠ DQUOTE)
    (hi : st.i < st.args.length) :
    parseBody st x.length
      = some { st with args := st.args.set st.i (some x.length), i := st.i + 1,
                       argCounter := st.argCounter + 1 } := by
  have hpos : 0 < t.length := List.length_pos.mpr ht
  have hscan : scanWhile (fun c => c != EQUALS && c != NUL) (x ++ (t ++ NUL :: y)) x.length
      = some (x.length + t.length) :=
    scanWhile_stop _ x t NUL y (fun c hc => by simp [(hp c hc).1, (hp c hc).2.1]) (by decide)
  have hnul : (x ++ (t ++ NUL :: y))[x.length + t.length]? = some NUL := by
    have e : x ++ (t ++ NUL :: y) = (x ++ t) ++ NUL :: y := by simp
    rw [e]
    exact getElem?_at _ _ _ _ (by simp)
  have hchr : strchr (x ++ (t ++ NUL :: y)) x.length EQUALS = some none := by
    unfold strchr
    rw [hscan]
    simp only [hnul]
    rw [if_neg (by decide)]
  obtain ⟨c0, h0, hc0⟩ := getElem?_inner x t (NUL :: y) 0 hpos
  obtain ⟨cl, hl, hcl⟩ := getElem?_inner x t (NUL :: y) (t.length - 1) (by omega)
  have hstr : strlen (x ++ (t ++ NUL :: y)) x.length = some t.length :=
    strlen_stop x t y (fun h => (hp NUL h).1 rfl)
  have hidx : x.length + t.length - 1 = x.length + (t.length - 1) := by omega
  have hne : ¬ (x.length + t.length = 0) := by omega
  simp only [parseBody, hq, hchr, hi, hcmd, if_true, Bool.false_eq_true, if_false,
    Option.pure_def, Option.bind_eq_bind, Option.some_bind, Nat.add_zero] at h0 ⊢
  simp only [h0, Option.some_bind, if_neg (hp c0 hc0).2.2, hstr, hne, if_false, hidx, hl,
    if_neg (hp cl hcl).2.2]

theorem tokens_eq (s : List Char) :
    tokens s = (s.splitOnP (fun c => c == SPACE)).filter (fun t => !t.isEmpty) := rfl

theorem tokens_spaces_append (g r : List Char) (hg : ∀ c ∈ g, c = SPACE) :
    tokens (g ++ r) = tokens r := by
  induction g with
  | nil => rfl
  | cons c g ih =>
    have hc : c = SPACE := hg c (List.mem_cons_self c g)
    have hg2 : ∀ x ∈ g, x = SPACE := fun x hx => hg x (List.mem_cons_of_mem c hx)
    rw [List.cons_append, tokens_eq, List.splitOnP_cons]
    simp only [hc, beq_self_eq_true, if_true]
    rw [List.filter_cons]
    simp only [List.isEmpty_nil, Bool.not_true, Bool.false_eq_true, if_false]
    exact ih hg2

theorem tokens_token_space (t r : List Char) (ht : t ≠ []) (hts : ∀ c ∈ t, c ≠ SPACE) :
    tokens (t ++ SPACE :: r) = t :: tokens r := by
  have hf := List.splitOnP_first (fun c => c == SPACE) t
    (fun x hx => by simp [hts x hx]) SPACE (by simp) r
  rw [tokens_eq, hf, List.filter_cons]
  have : (!t.isEmpty) = true := by
    cases t with
    | nil => exact absurd rfl ht
    | cons _ _ => rfl
  simp only [this, if_true]
  rfl

theorem tokens_token_end (t : List Char) (ht : t ≠ []) (hts : ∀ c ∈ t, c ≠ SPACE) :
    tokens t = [t] := by
  have hf := List.splitOnP_eq_single (fun c => c == SPACE) t
    (fun x hx => by simp [hts x hx])
  rw [tokens_eq, hf, List.filter_cons]
  have : (!t.isEmpty) = true := by
    cases t with
    | nil => exact absurd rfl ht
    | cons _ _ => rfl
  simp only [this, if_true]
  rfl

theorem tokens_nil : tokens [] = [] := rfl

/-- Every text is a run of blanks, followed by nothing, by a last token, or by
a token, a blank and more text. -/
theorem text_decompose (r : List Char) :
    ∃ g, (∀ c ∈ g, c = SPACE) ∧
      (r = g ∨ ∃ t, t ≠ [] ∧ (∀ c ∈ t, c ≠ SPACE) ∧
        (r = g ++ t ∨ ∃ r3, r = g ++ (t ++ SPACE :: r3))) := by
  refine ⟨r.takeWhile (fun c => c == SPACE), ?_, ?_⟩
  · intro c hc
    simpa using List.mem_takeWhile_imp hc
  · have hsplit := List.takeWhile_append_dropWhile (fun c => c == SPACE) r
    rcases hrest : r.dropWhile (fun c => c == SPACE) with _ | ⟨h, rest⟩
    · left
      rw [hrest, List.append_nil] at hsplit
      exact hsplit.symm
    · right
      have hh : h ≠ SPACE := by
        have := List.head?_dropWhile_not (fun c => c == SPACE) r
        rw [hrest] at this
        simpa using this
      have hsplit2 := List.takeWhile_append_dropWhile (fun c => c != SPACE) (h :: rest)
      refine ⟨(h :: rest).takeWhile (fun c => c != SPACE), ?_, ?_, ?_⟩
      · have hb : (h != SPACE) = true := by simp [hh]
        rw [List.takeWhile_cons, hb]
        simp
      · intro c hc
        simpa using List.mem_takeWhile_imp hc
      · rcases hrest2 : (h :: rest).dropWhile (fun c => c != SPACE) with _ | ⟨h2, r3⟩
        · left
          rw [hrest2, List.append_nil] at hsplit2
          rw [hsplit2, ← hrest, hsplit]
        · right
          have hh2 : h2 = SPACE := by
            have := List.head?_dropWhile_not (fun c => c != SPACE) (h :: rest)
            rw [hrest2] at this
            simpa using this
          refine ⟨r3, ?_⟩
          rw [hrest2, hh2] at hsplit2
          rw [hrest] at hsplit
          rw [hsplit2, hsplit]

theorem cstr_at (x t y : List Char) (ht : NUL ∉ t) :
    cstr (x ++ (t ++ NUL :: y)) x.length = t := by
  unfold cstr
  rw [List.drop_left, takeWhile_stop (fun c => c != NUL) t NUL y]
  · intro c hc
    have : c ≠ NUL := fun e => ht (e ▸ hc)
    simpa using this
  · simp

theorem Layout.length_eq {B : Buf} {base fin : Nat} {os : List Nat} {ts : List (List Char)}
    (h : Layout B base os ts fin) : os.length = ts.length := by
  induction h with
  | nil => rfl
  | cons _ _ _ _ _ _ _ _ _ _ _ _ _ ih => simp [ih]

theorem Layout.base_le_fin {B : Buf} {base fin : Nat} {os : List Nat} {ts : List (List Char)}
    (h : Layout B base os ts fin) : base ≤ fin := by
  induction h with
  | nil => exact Nat.le_refl _
  | cons _ _ _ _ _ _ _ _ hb _ _ _ _ ih => omega

theorem Layout.read {B : Buf} {base fin : Nat} {os : List Nat} {ts : List (List Char)}
    (h : Layout B base os ts fin) : os.map (cstr B) = ts := by
  induction h with
  | nil => rfl
  | cons _ o t _ _ _ x y _ hB hx ht _ ih =>
    rw [List.map_cons, ih]
    congr 1
    rw [hB, ← hx]
    exact cstr_at x t y ht

/-- A store at or past `fin` leaves the layout as it is. -/
theorem Layout.set_after {B : Buf} {base fin : Nat} {os : List Nat} {ts : List (List Char)}
    (h : Layout B base os ts fin) (p : Nat) (c : Char) (hp : fin ≤ p) :
    Layout (B.set p c) base os ts fin := by
  induction h with
  | nil => exact Layout.nil _
  | cons base o t os ts fin x y hb hB hx ht hrest ih =>
    have hfin := hrest.base_le_fin
    refine Layout.cons base o t os ts fin x (y.set (p - (o + t.length + 1)) c) hb ?_ hx ht
      (ih hp)
    rw [hB]
    have e : x ++ (t ++ NUL :: y) = (x ++ (t ++ [NUL])) ++ y := by simp
    have e2 : x ++ (t ++ NUL :: y.set (p - (o + t.length + 1)) c)
        = (x ++ (t ++ [NUL])) ++ y.set (p - (o + t.length + 1)) c := by simp
    rw [e, e2, List.set_append_right _ _ (by simp; omega)]
    congr 2
    simp
    omega

theorem parseLoop_end (f : Nat) (st : ParseState) (a g R : List Char)
    (hcmd : st.command = a ++ (g ++ NUL :: R)) (hsave : st.save = a.length)
    (hq : st.isInQuotes = false) (hg : ∀ c ∈ g, c = SPACE) :
    parseLoop (f + 1) st = .ok { st with save := a.length + g.length } := by
  have h := strtok_none a g R hg
  rw [parseLoop]
  simp only [hq, Bool.false_eq_true, if_false, hcmd, hsave, h]

theorem parseLoop_cd (f : Nat) (st : ParseState) (a g R : List Char) (c : Char)
    (hcmd : st.command = a ++ (g ++ (CD ++ c :: R))) (hsave : st.save = a.length)
    (hq : st.isInQuotes = false) (hg : ∀ x ∈ g, x = SPACE) (hc : c = SPACE ∨ c = NUL) :
    parseLoop (f + 1) st
      = .ok { st with command := a ++ (g ++ (CD ++ NUL :: R)),
                      save := a.length + g.length + CD.length + (if c = NUL then 0 else 1) } := by
  have h := strtok_token a g CD R c hg (by decide) (by decide) hc
  have hread : cstr (a ++ (g ++ (CD ++ NUL :: R))) (a.length + g.length) = CD := by
    have := cstr_at (a ++ g) CD R (by decide)
    simpa using this
  rw [parseLoop]
  simp only [hq, Bool.false_eq_true, if_false, hcmd, hsave, h, hread, if_true]

theorem parseLoop_step_plain (f : Nat) (st : ParseState) (a g t R : List Char) (c : Char)
    (hcmd : st.command = a ++ (g ++ (t ++ c :: R))) (hsave : st.save = a.length)
    (hq : st.isInQuotes = false) (hg : ∀ x ∈ g, x = SPACE) (hc : c = SPACE ∨ c = NUL)
    (ht : t ≠ []) (hts : ∀ x ∈ t, x ≠ SPACE) (hcd : t ≠ CD)
    (hp : ∀ x ∈ t, x ≠ NUL ∧ x ≠ EQUALS ∧ x ≠ DQUOTE)
    (hi : st.i < MAX_NUM_ARGS) (hi2 : st.i < st.args.length) :
    parseLoop (f + 1) st
      = parseLoop f { st with command := a ++ (g ++ (t ++ NUL :: R)),
                              save := a.length + g.length + t.length + (if c = NUL then 0 else 1),
                              args := st.args.set st.i (some (a.length + g.length)),
                              i := st.i + 1, argCounter := st.argCounter + 1 } := by
  have h := strtok_token a g t R c hg ht (fun x hx => ⟨hts x hx, (hp x hx).1⟩) hc
  have hread : cstr (a ++ (g ++ (t ++ NUL :: R))) (a.length + g.length) = t := by
    have := cstr_at (a ++ g) t R (fun h => (hp NUL h).1 rfl)
    simpa using this
  have hbody := parseBody_plain
    { st with command := a ++ (g ++ (t ++ NUL :: R)),
              save := a.length + g.length + t.length + (if c = NUL then 0 else 1) }
    (a ++ g) t R (by simp) hq ht hp hi2
  simp only [List.length_append, hq] at hbody
  rw [parseLoop]
  simp only [hq, Bool.false_eq_true, if_false, hcmd, hsave, h, hread, if_neg hcd,
    if_neg (Nat.not_le.mpr hi), hbody]

theorem tokens_spaces (g : List Char) (hg : ∀ c ∈ g, c = SPACE) : tokens g = [] := by
  have := tokens_spaces_append g [] hg
  rwa [List.append_nil] at this

theorem takeWhile_notCD_cons (t : List Char) (ts : List (List Char)) :
    (t :: ts).takeWhile (fun t => t != CD)
      = if t = CD then [] else t :: ts.takeWhile (fun t => t != CD) := by
  by_cases h : t = CD
  · simp [List.takeWhile_cons, h]
  · simp [List.takeWhile_cons, h]

theorem parseLoop_plain (tail : List Char) :
    ∀ (n : Nat) (r : List Char), r.length = n →
    ∀ (a : List Char) (st : ParseState) (front back : List (Option Nat)) (fuel : Nat),
      st.command = a ++ (r ++ NUL :: tail) → st.save = a.length → st.isInQuotes = false →
      st.args = front ++ back → st.i = front.length →
      (∀ c ∈ r, c ≠ NUL ∧ c ≠ EQUALS ∧ c ≠ DQUOTE) →
      front.length + ((tokens r).takeWhile (fun t => t != CD)).length < MAX_NUM_ARGS →
      ((tokens r).takeWhile (fun t => t != CD)).length < back.length →
      ((tokens r).takeWhile (fun t => t != CD)).length + 1 ≤ fuel →
      ∃ r1 os fin sv,
        parseLoop fuel st = .ok { st with command := a ++ r1, save := sv,
                                          args := front ++ (os.map some ++ back.drop os.length),
                                          i := st.i + os.length,
                                          argCounter := st.argCounter + os.length }
        ∧ Layout (a ++ r1) a.length os ((tokens r).takeWhile (fun t => t != CD)) fin := by
  intro n
  induction n using Nat.strong_induction_on with
  | _ n ih =>
    intro r hlen a st front back fuel hcmd hsave hq hargs hi hr hmax hback hfuel
    obtain ⟨f, rfl⟩ : ∃ f, fuel = f + 1 := ⟨fuel - 1, by omega⟩
    rcases text_decompose r with ⟨g, hg, hrg | ⟨t, ht, hts, rfl | ⟨r3, rfl⟩⟩⟩
    · -- only blanks are left
      subst hrg
      have htok := tokens_spaces r hg
      rw [htok] at hmax hback hfuel ⊢
      refine ⟨r ++ NUL :: tail, [], a.length, a.length + r.length, ?_, Layout.nil _⟩
      rw [parseLoop_end f st a r tail hcmd hsave hq hg]
      congr 1
      cases st
      simp only [ParseState.mk.injEq, true_and, and_true] at hcmd hargs ⊢
      simp [hcmd, hargs]
    · -- a last token, up to the terminator
      have htok : tokens (g ++ t) = [t] := by
        rw [tokens_spaces_append g t hg, tokens_token_end t ht hts]
      have hpt : ∀ x ∈ t, x ≠ NUL ∧ x ≠ EQUALS ∧ x ≠ DQUOTE :=
        fun x hx => hr x (List.mem_append_right g hx)
      have hcmd2 : st.command = a ++ (g ++ (t ++ NUL :: tail)) := by
        rw [hcmd]; simp
      rw [htok, takeWhile_notCD_cons] at hmax hback hfuel ⊢
      by_cases hcd : t = CD
      · subst hcd
        simp only [if_true] at hmax hback hfuel ⊢
        refine ⟨g ++ (CD ++ NUL :: tail), [], a.length,
          a.length + g.length + CD.length + (if NUL = NUL then 0 else 1), ?_, Layout.nil _⟩
        rw [parseLoop_cd f st a g tail NUL hcmd2 hsave hq hg (Or.inr rfl)]
        congr 1
        cases st
        simp only [ParseState.mk.injEq, true_and, and_true] at hargs ⊢
        simp [hargs]
      · simp only [if_neg hcd, List.takeWhile_nil, List.length_singleton] at hmax hback hfuel ⊢
        obtain ⟨f2, rfl⟩ : ∃ f2, f = f2 + 1 := ⟨f - 1, by omega⟩
        obtain ⟨y, back1, rfl⟩ : ∃ y back1, back = y :: back1 := by
          cases back with
          | nil => simp at hback
          | cons y b => exact ⟨y, b, rfl⟩
        rw [parseLoop_step_plain (f2 + 1) st a g t tail NUL hcmd2 hsave hq hg (Or.inr rfl)
          ht hts hcd hpt (by omega) (by rw [hargs, hi]; simp)]
        have hend := parseLoop_end f2
          { st with command := a ++ (g ++ (t ++ NUL :: tail)),
                    save := a.length + g.length + t.length + (if NUL = NUL then 0 else 1),
                    args := st.args.set st.i (some (a.length + g.length)),
                    i := st.i + 1, argCounter := st.argCounter + 1 }
          (a ++ (g ++ t)) [] tail (by simp) (by simp [Nat.add_assoc]) hq (by simp)
        rw [hend]
        refine ⟨g ++ (t ++ NUL :: tail), [a.length + g.length], a.length + g.length + t.length + 1,
          (a ++ (g ++ t)).length + ([] : List Char).length, ?_, ?_⟩
        · congr 1
          cases st
          simp only [ParseState.mk.injEq, true_and, and_true] at hargs hi ⊢
          subst hargs hi
          simp
        · refine Layout.cons _ _ t [] [] _ (a ++ g) tail (by omega) (by simp) (by simp)
            (fun h => (hpt NUL h).1 rfl) (Layout.nil _)
    · -- a token, a blank, and more text
      have htok : tokens (g ++ (t ++ SPACE :: r3)) = t :: tokens r3 := by
        rw [tokens_spaces_append g _ hg, tokens_token_space t r3 ht hts]
      have hpt : ∀ x ∈ t, x ≠ NUL ∧ x ≠ EQUALS ∧ x ≠ DQUOTE :=
        fun x hx => hr x (List.mem_append_right g (List.mem_append_left _ hx))
      have hr3 : ∀ x ∈ r3, x ≠ NUL ∧ x ≠ EQUALS ∧ x ≠ DQUOTE :=
        fun x hx => hr x (List.mem_append_right g
          (List.mem_append_right t (List.mem_cons_of_mem _ hx)))
      have hcmd2 : st.command = a ++ (g ++ (t ++ SPACE :: (r3 ++ NUL :: tail))) := by
        rw [hcmd]; simp
      rw [htok, takeWhile_notCD_cons] at hmax hback hfuel ⊢
      by_cases hcd : t = CD
      · subst hcd
        simp only [if_true] at hmax hback hfuel ⊢
        refine ⟨g ++ (CD ++ NUL :: (r3 ++ NUL :: tail)), [], a.length,
          a.length + g.length + CD.length + (if SPACE = NUL then 0 else 1), ?_, Layout.nil _⟩
        rw [parseLoop_cd f st a g (r3 ++ NUL :: tail) SPACE hcmd2 hsave hq hg (Or.inl rfl)]
        congr 1
        cases st
        simp only [ParseState.mk.injEq, true_and, and_true] at hargs ⊢
        simp [hargs]
      · simp only [if_neg hcd, List.length_cons] at hmax hback hfuel ⊢
        obtain ⟨y, back1, rfl⟩ : ∃ y back1, back = y :: back1 := by
          cases back with
          | nil => simp at hback
          | cons y b => exact ⟨y, b, rfl⟩
        rw [parseLoop_step_plain f st a g t (r3 ++ NUL :: tail) SPACE hcmd2 hsave hq hg
          (Or.inl rfl) ht hts hcd hpt (by omega) (by rw [hargs, hi]; simp)]
        have hlt : r3.length < n := by
          rw [← hlen]; simp; omega
        obtain ⟨r1, os, fin, sv, hrun, hlay⟩ := ih r3.length hlt r3 rfl
          (a ++ (g ++ (t ++ [NUL])))
          { st with command := a ++ (g ++ (t ++ NUL :: (r3 ++ NUL :: tail))),
                    save := a.length + g.length + t.length + (if SPACE = NUL then 0 else 1),
                    args := st.args.set st.i (some (a.length + g.length)),
                    i := st.i + 1, argCounter := st.argCounter + 1 }
          (front ++ [some (a.length + g.length)]) back1 f
          (by simp) (by simp [show SPACE ≠ NUL by decide, Nat.add_assoc]) hq
          (by
            show st.args.set st.i (some (a.length + g.length)) = _
            rw [hargs, hi, List.set_append_right _ _ (Nat.le_refl _)]
            simp)
          (by simp [hi]) hr3
          (by simp only [List.length_append, List.length_singleton]; omega)
          (by simp only [List.length_cons] at hback; omega) (by omega)
        rw [hrun]
        refine ⟨g ++ (t ++ NUL :: r1), (a.length + g.length) :: os, fin, sv, ?_, ?_⟩
        · congr 1
          simp only [ParseState.mk.injEq, true_and, and_true, List.length_cons, List.map_cons,
            List.drop_succ_cons, List.append_assoc, List.singleton_append, List.cons_append,
            List.nil_append]
          omega
        · have hB : a ++ (g ++ (t ++ NUL :: r1)) = (a ++ (g ++ (t ++ [NUL]))) ++ r1 := by simp
          refine Layout.cons _ _ t os _ fin (a ++ g) r1 (by omega) (by simp) (by simp)
            (fun h => (hpt NUL h).1 rfl) ?_
          rw [hB]
          have e : a.length + g.length + t.length + 1 = (a ++ (g ++ (t ++ [NUL]))).length := by
            simp; omega
          rw [e]
          exact hlay

theorem Layout.le_of_mem {B : Buf} {base fin : Nat} {os : List Nat} {ts : List (List Char)}
    (h : Layout B base os ts fin) : ∀ o ∈ os, base ≤ o := by
  induction h with
  | nil => intro o ho; simp at ho
  | cons base o1 t1 os1 ts1 fin x y hb _ _ _ _ ih =>
    intro o ho
    rcases List.mem_cons.mp ho with h | h
    · omega
    · have := ih o h
      omega

/-- The last token of a layout, as it lies in the array. -/
theorem Layout.last_decomp {B : Buf} {base fin : Nat} {os : List Nat} {ts : List (List Char)}
    (h : Layout B base os ts fin) :
    ∀ o t, os.getLast? = some o → ts.getLast? = some t →
      ∃ x y, B = x ++ (t ++ NUL :: y) ∧ x.length = o ∧ NUL ∉ t := by
  induction h with
  | nil => intro o t ho; simp at ho
  | cons base o1 t1 os1 ts1 fin x y hb hB hx ht hrest ih =>
    intro o t ho hts
    cases hrest with
    | nil =>
      simp only [List.getLast?_singleton, Option.some.injEq] at ho hts
      subst ho hts
      exact ⟨x, y, hB, hx, ht⟩
    | cons _ o2 t2 os2 ts2 _ x2 y2 hb2 hB2 hx2 ht2 hrest2 =>
      rw [List.getLast?_cons_cons] at ho hts
      exact ih o t ho hts

/-- Overwriting the last character of the last token with NUL shortens that
token by one character and leaves the others as they are. -/
theorem Layout.poke_last {B : Buf} {base fin : Nat} {os : List Nat} {ts : List (List Char)}
    (h : Layout B base os ts fin) :
    ∀ o t0 c, os.getLast? = some o → ts.getLast? = some (t0 ++ [c]) →
      ∃ fin1, Layout (B.set (o + t0.length) NUL) base os (ts.dropLast ++ [t0]) fin1 := by
  induction h with
  | nil => intro o t0 c ho; simp at ho
  | cons base o1 t1 os1 ts1 fin x y hb hB hx ht hrest ih =>
    intro o t0 c ho hts
    cases hrest with
    | nil =>
      simp only [List.getLast?_singleton, Option.some.injEq] at ho hts
      subst ho hts
      refine ⟨_, Layout.cons base o1 t0 [] [] _ x (NUL :: y) hb ?_ hx
        (fun h => ht (List.mem_append_left _ h)) (Layout.nil _)⟩
      have e : x ++ (t0 ++ [c] ++ NUL :: y) = (x ++ t0) ++ c :: (NUL :: y) := by simp
      rw [hB, e, set_at _ _ _ _ _ (by simp [hx])]
      simp
    | cons _ o2 t2 os2 ts2 _ x2 y2 hb2 hB2 hx2 ht2 hrest2 =>
      have hrest := Layout.cons (o1 + t1.length + 1) o2 t2 os2 ts2 fin x2 y2 hb2 hB2 hx2 ht2 hrest2
      rw [List.getLast?_cons_cons] at ho hts
      obtain ⟨fin1, hl⟩ := ih o t0 c ho hts
      have ho2 : o ∈ o2 :: os2 := List.mem_of_getLast?_eq_some ho
      have hge := hrest.le_of_mem o ho2
      refine ⟨fin1, ?_⟩
      rw [List.dropLast_cons₂, List.cons_append]
      refine Layout.cons base o1 t1 (o2 :: os2) _ fin1 x
        (y.set (o + t0.length - (o1 + t1.length + 1)) NUL) hb ?_ hx ht hl
      have e : x ++ (t1 ++ NUL :: y) = (x ++ (t1 ++ [NUL])) ++ y := by simp
      have e2 : x ++ (t1 ++ NUL :: y.set (o + t0.length - (o1 + t1.length + 1)) NUL)
          = (x ++ (t1 ++ [NUL])) ++ y.set (o + t0.length - (o1 + t1.length + 1)) NUL := by simp
      rw [hB, e, e2, List.set_append_right _ _ (by simp; omega)]
      congr 2
      simp
      omega

theorem parseFinish_zero (st : ParseState) (bg : Bool) (hi : st.i = 0)
    (hlen : 0 < st.args.length) :
    parseFinish st bg = .ok ⟨st.command, st.args.set 0 none, bg, st.vars, st.argCounter⟩ := by
  unfold parseFinish
  simp [hi, hlen]

theorem parseFinish_last (st : ParseState) (bg : Bool) (o : Nat) (x t0 y : List Char) (c : Char)
    (hi : 0 < st.i) (hslot : st.args[st.i - 1]? = some (some o))
    (hcmd : st.command = x ++ (t0 ++ [c] ++ NUL :: y)) (hx : x.length = o)
    (ht : NUL ∉ t0 ++ [c]) (hlen : st.i < st.args.length) :
    parseFinish st bg
      = .ok ⟨if c = AMP then st.command.set (o + t0.length) NUL else st.command,
          st.args.set st.i none, if c = AMP then true else bg, st.vars, st.argCounter⟩ := by
  have hstr : strlen st.command o = some (t0 ++ [c]).length := by
    rw [hcmd, ← hx]
    exact strlen_stop x (t0 ++ [c]) y ht
  have hidx : o + (t0 ++ [c]).length - 1 = o + t0.length := by simp
  have hne : ¬ (o + (t0 ++ [c]).length = 0) := by simp
  have hget : st.command[o + t0.length]? = some c := by
    have e : x ++ (t0 ++ [c] ++ NUL :: y) = (x ++ t0) ++ c :: (NUL :: y) := by simp
    rw [hcmd, e]
    exact getElem?_at _ _ _ _ (by simp [hx])
  have hlt : o + t0.length < st.command.length := by
    rw [hcmd]; simp; omega
  unfold parseFinish
  simp only [hi, if_true, hslot, hstr, hne, if_false, hidx, hget, poke, hlt, hlen]
  by_cases hc : c = AMP
  · simp [hc]
  · simp [hc]

theorem argv_slots (b : Buf) (os : List Nat) (rest : List (Option Nat)) (bg : Bool)
    (vars : List Variable) (ac : Nat) :
    argv ⟨b, os.map some ++ none :: rest, bg, vars, ac⟩ = os.map (cstr b) := by
  unfold argv
  induction os with
  | nil => simp [List.takeWhile]
  | cons o os ih => simp [List.takeWhile]

theorem tokens_ne_nil (s t : List Char) (h : t ∈ tokens s) : t ≠ [] := by
  simp only [tokens, List.mem_filter] at h
  intro e
  simp [e] at h

/-- A stage without quotes and equals signs: the arguments are the tokens
before the first `cd`, the last of them without its trailing ampersand. -/
theorem parseCommand_plain (s tail : List Char) (args : List (Option Nat)) (bg : Bool)
    (vars : List Variable) (ac fuel : Nat)
    (hs : ∀ c ∈ s, c ≠ NUL ∧ c ≠ EQUALS ∧ c ≠ DQUOTE)
    (hargs : args.length = MAX_NUM_ARGS)
    (hn : ((tokens s).takeWhile (fun t => t != CD)).length < MAX_NUM_ARGS)
    (hfuel : ((tokens s).takeWhile (fun t => t != CD)).length + 1 ≤ fuel) :
    ∃ p, parseCommand fuel (s ++ NUL :: tail) args bg vars ac = .ok p
      ∧ argv p = stripAmp ((tokens s).takeWhile (fun t => t != CD))
      ∧ p.bg = (bg || endsWithAmp ((tokens s).takeWhile (fun t => t != CD)))
      ∧ p.vars = vars
      ∧ p.args[((tokens s).takeWhile (fun t => t != CD)).length]? = some none := by
  obtain ⟨r1, os, fin, sv, hrun, hlay⟩ := parseLoop_plain tail s.length s rfl []
    ⟨s ++ NUL :: tail, args, 0, false, 0, vars, ac⟩ [] args fuel
    (by simp) rfl rfl (by simp) rfl hs (by simpa using hn) (by rw [hargs]; exact hn) hfuel
  simp only [List.nil_append, List.length_nil, Nat.zero_add] at hrun hlay
  have hlen := hlay.length_eq
  have hread := hlay.read
  generalize hts : (tokens s).takeWhile (fun t => t != CD) = ts at *
  have hdrop : ∃ y rest, args.drop os.length = y :: rest := by
    have : 0 < (args.drop os.length).length := by
      rw [List.length_drop, hargs, hlen]; omega
    cases h : args.drop os.length with
    | nil => rw [h] at this; simp at this
    | cons y rest => exact ⟨y, rest, rfl⟩
  obtain ⟨y, rest, hdrop⟩ := hdrop
  have hset : (os.map some ++ args.drop os.length).set os.length none
      = os.map some ++ none :: rest := by
    rw [hdrop, List.set_append_right _ _ (by simp)]
    simp
  have hslot : (os.map some ++ none :: rest)[ts.length]? = some none := by
    rw [← hlen, List.getElem?_append_right (by simp)]
    simp
  unfold parseCommand
  rw [hrun]
  simp only
  rcases hlast : ts.getLast? with _ | t
  · -- no argument was collected
    have hnil : ts = [] := List.getLast?_eq_none_iff.mp hlast
    have hos : os = [] := List.length_eq_zero.mp (by rw [hlen, hnil]; rfl)
    subst hnil hos
    rw [parseFinish_zero _ bg rfl (by simp [hargs, MAX_NUM_ARGS])]
    refine ⟨_, rfl, ?_, ?_, rfl, ?_⟩
    · have := argv_slots r1 [] rest bg vars (ac + 0)
      simp only [List.map_nil, List.nil_append] at this hset
      simp only [List.map_nil, List.nil_append, List.length_nil, List.drop_zero] at hset ⊢
      rw [hset, this]
      rfl
    · simp [endsWithAmp]
    · simp only [List.map_nil, List.nil_append, List.length_nil, List.drop_zero] at hset hslot ⊢
      rw [hset]
      exact hslot
  · -- the last argument is examined
    have hmem : t ∈ tokens s := by
      have : t ∈ ts := List.mem_of_getLast?_eq_some hlast
      rw [← hts] at this
      exact (List.takeWhile_sublist _).subset this
    have htne := tokens_ne_nil s t hmem
    obtain ⟨t0, c, rfl⟩ : ∃ t0 c, t = t0 ++ [c] :=
      ⟨t.dropLast, t.getLast htne, (List.dropLast_concat_getLast htne).symm⟩
    have hosne : os ≠ [] := by
      intro h
      rw [h] at hlen
      have : ts = [] := List.length_eq_zero.mp hlen.symm
      rw [this] at hlast
      simp at hlast
    obtain ⟨o, holast⟩ : ∃ o, os.getLast? = some o :=
      ⟨os.getLast hosne, List.getLast?_eq_getLast _ hosne⟩
    obtain ⟨x, y2, hB, hx, hnul⟩ := hlay.last_decomp o (t0 ++ [c]) holast hlast
    have hpos : 0 < os.length := List.length_pos.mpr hosne
    have hslot1 : (os.map some ++ args.drop os.length)[os.length - 1]? = some (some o) := by
      obtain ⟨os0, hos0⟩ := List.getLast?_eq_some_iff.mp holast
      have e : os.map some ++ args.drop os.length
          = os0.map some ++ some o :: args.drop os.length := by
        rw [hos0]; simp
      rw [e, List.getElem?_append_right (by simp [hos0])]
      simp [hos0]
    rw [parseFinish_last _ bg o x t0 y2 c hpos hslot1 (by rw [hB]) hx hnul
      (by simp [hargs]; omega)]
    simp only [hset]
    have hstrip : stripAmp ts = if c = AMP then ts.dropLast ++ [t0] else ts := by
      simp [stripAmp, hlast]
    have hends : endsWithAmp ts = (c == AMP) := by
      simp [endsWithAmp, hlast]
    by_cases hc : c = AMP
    · obtain ⟨fin1, hl2⟩ := hlay.poke_last o t0 c holast hlast
      refine ⟨_, rfl, ?_, ?_, rfl, ?_⟩
      · simp only [hc, if_true]
        rw [argv_slots, hl2.read, hstrip, if_pos hc]
      · simp [hc, hends]
      · simp only [hc, if_true]
        exact hslot
    · refine ⟨_, rfl, ?_, ?_, rfl, ?_⟩
      · simp only [hc, if_false]
        rw [argv_slots, hread, hstrip, if_neg hc]
      · simp [hc, hends]
      · simp only [hc, if_false]
        exact hslot

theorem getVariable_none_iff (vars : List Variable) (k : List Char) :
    getVariable vars k = none ↔ ∀ e ∈ vars, e.name ≠ k := by
  induction vars with
  | nil => simp [getVariable]
  | cons e vars ih =>
    by_cases h : e.name = k
    · simp [getVariable, h]
    · simp [getVariable, h, ih]

/-! ## Lemmas on pipeline execution -/

/-- C1: on an array holding `pre ++ "$" ++ name ++ post` and its terminator,
where `pre` and `post` have no dollar sign, `name` is a run of characters that
are neither whitespace nor a double quote, `post` is empty or starts with
whitespace or a double quote, `name` is bound to `v` and the result fits the
array, `replaceVariables` returns (with enough fuel) an array of the same size
whose string is exactly `pre ++ v ++ post`; nothing is assumed about dollar
signs inside `v`. -/
theorem replaceVariables_substitutes_bound (vars : List Variable)
    (pre name post v tail : List Char) (fuel : Nat)
    (hpre : ∀ x ∈ pre, x ≠ NUL ∧ x ≠ DOLLAR)
    (hpost : ∀ x ∈ post, x ≠ NUL ∧ x ≠ DOLLAR)
    (hrun : ∀ x ∈ name, x ≠ NUL ∧ isspace x = false ∧ x ≠ DQUOTE)
    (hend : post = [] ∨ ∃ c r, post = c :: r ∧ (isspace c = true ∨ c = DQUOTE))
    (hget : getVariable vars name = some v)
    (hv : NUL ∉ v)
    (hfit : (pre ++ v ++ post).length + 1
      ≤ (pre ++ DOLLAR :: (name ++ (post ++ NUL :: tail))).length)
    (hfuel : pre.length + post.length + 2 ≤ fuel) :
    ∃ out, replaceVariables vars fuel (pre ++ DOLLAR :: (name ++ (post ++ NUL :: tail)))
        = some out
      ∧ cstr out 0 = pre ++ v ++ post
      ∧ out.length = (pre ++ DOLLAR :: (name ++ (post ++ NUL :: tail))).length := by
  obtain ⟨k, rfl⟩ : ∃ k, fuel = ((k + 1) + post.length) + 1 + pre.length :=
    ⟨fuel - (pre.length + post.length + 2), by omega⟩
  have hrun2 : ∀ x ∈ name, isNameChar x = true := by
    intro x hx
    obtain ⟨h1, h2, h3⟩ := hrun x hx
    simp [isNameChar, h1, h2, h3]
  have hend2 : post = [] ∨ ∃ c r, post = c :: r ∧ isNameChar c = false := by
    rcases hend with h | ⟨c, r, h, hc⟩
    · exact Or.inl h
    · refine Or.inr ⟨c, r, h, ?_⟩
      rcases hc with hc | hc
      · simp [isNameChar, hc]
      · simp [isNameChar, hc]
  have hpostN : NUL ∉ post := fun h => (hpost NUL h).1 rfl
  have hpreN : NUL ∉ pre := fun h => (hpre NUL h).1 rfl
  have hfit2 : v.length ≤ 1 + name.length + tail.length := by
    simp only [List.length_append, List.length_cons] at hfit
    omega
  obtain ⟨rest, hstep, hlen⟩ :=
    replaceVariablesLoop_subst vars ((k + 1) + post.length) pre name post v tail
      hrun2 hend2 hpostN hget hfit2
  refine ⟨pre ++ (v ++ (post ++ NUL :: rest)), ?_, ?_, hlen⟩
  · unfold replaceVariables
    rw [replaceVariablesLoop_skip_zero vars _ pre _ hpre, hstep]
    have hskip := replaceVariablesLoop_skip vars (k + 1) post (pre ++ v) (NUL :: rest) hpost
    simp only [List.length_append, List.append_assoc] at hskip
    have hg : (pre ++ (v ++ (post ++ NUL :: rest)))[pre.length + v.length + post.length]?
        = some NUL := by
      have := getElem?_mid (pre ++ v ++ post) NUL rest
      simp only [List.length_append, List.append_assoc] at this
      rw [Nat.add_assoc]
      exact this
    rw [hskip, replaceVariablesLoop]
    simp only [hg]
    simp
  · have e : pre ++ (v ++ (post ++ NUL :: rest)) = (pre ++ v ++ post) ++ NUL :: rest := by
      simp
    rw [e]
    apply cstr_stop
    simp only [List.mem_append, not_or]
    exact ⟨⟨hpreN, hv⟩, hpostN⟩

/-- Witness for C1: `x` is bound to `$y b` and `y` to `1`; the text
`echo $x"q"` becomes `echo $y b"q"`, the inserted `$y` being left alone. -/
theorem replaceVariables_substitutes_bound_witness :
    ∃ out, replaceVariables
        [⟨"x".toList, "$y b".toList⟩, ⟨"y".toList, "1".toList⟩] 20
        ("echo ".toList ++ DOLLAR :: ("x".toList ++ ("\"q\"".toList ++ NUL :: [NUL, NUL, NUL])))
        = some out
      ∧ cstr out 0 = "echo ".toList ++ "$y b".toList ++ "\"q\"".toList
      ∧ out.length = ("echo ".toList ++ DOLLAR ::
          ("x".toList ++ ("\"q\"".toList ++ NUL :: [NUL, NUL, NUL]))).length :=
  replaceVariables_substitutes_bound
    [⟨"x".toList, "$y b".toList⟩, ⟨"y".toList, "1".toList⟩]
    "echo ".toList "x".toList "\"q\"".toList "$y b".toList [NUL, NUL, NUL] 20
    (by decide) (by decide) (by decide)
    (Or.inr ⟨DQUOTE, "q\"".toList, by decide, Or.inr rfl⟩)
    (by decide) (by decide) (by decide) (by decide)

/-- C2: with `x` unbound, the text `echo "$x" y` comes out as `echo "`
followed by four blanks and `y`: the blanking loop stops at a blank or at the
terminator only, so it also overwrites the double quote that ends the name,
and the result is not `pre`, two blanks, `post`. -/
theorem replaceVariables_unbound_blanks_quote :
    replaceVariables [] 20 ("echo \"".toList ++ DOLLAR :: ("x".toList ++ ("\" y".toList ++ [NUL])))
        = some ("echo \"    y".toList ++ [NUL])
      ∧ cstr ("echo \"    y".toList ++ [NUL]) 0
        ≠ "echo \"".toList ++ List.replicate (1 + "x".toList.length) SPACE ++ "\" y".toList := by
  decide

/-- C3 fails: assigning `x` twice to an empty store leaves two entries named
`x`, and the lookup returns the first value, not the last. -/
theorem assignVariable_twice_counterexample :
    (assignVariable [] "x".toList "1".toList).bind
        (fun s => assignVariable s "x".toList "2".toList)
        = some [⟨"x".toList, "1".toList⟩, ⟨"x".toList, "2".toList⟩]
      ∧ getVariable [⟨"x".toList, "1".toList⟩, ⟨"x".toList, "2".toList⟩] "x".toList
        = some "1".toList
      ∧ getVariable [⟨"x".toList, "1".toList⟩, ⟨"x".toList, "2".toList⟩] "x".toList
        ≠ some "2".toList
      ∧ countNamed [⟨"x".toList, "1".toList⟩, ⟨"x".toList, "2".toList⟩] "x".toList = 2
      ∧ ¬ countNamed [⟨"x".toList, "1".toList⟩, ⟨"x".toList, "2".toList⟩] "x".toList ≤ 1 := by
  decide

/-- C3 as amended: the store appends on insert and the lookup returns the
first entry with the name.  For names and values shorter than 100 characters,
two assignments to `n` succeed and append two entries; afterwards the lookup
of `n` gives the value `n` had before if it was bound and `v1` otherwise, and
the number of entries named `n` has grown by two. -/
theorem assignVariable_twice_first_wins (vars : List Variable) (n v1 v2 : List Char)
    (hn : n.length < MAX_VAR_NAME_LENGTH)
    (h1 : v1.length < MAX_VAR_VALUE_LENGTH) (h2 : v2.length < MAX_VAR_VALUE_LENGTH) :
    (assignVariable vars n v1).bind (fun s => assignVariable s n v2)
        = some (vars ++ [⟨n, v1⟩, ⟨n, v2⟩])
      ∧ getVariable (vars ++ [⟨n, v1⟩, ⟨n, v2⟩]) n
        = some ((getVariable vars n).getD v1)
      ∧ countNamed (vars ++ [⟨n, v1⟩, ⟨n, v2⟩]) n = countNamed vars n + 2 := by
  refine ⟨?_, ?_, ?_⟩
  · simp [assignVariable, hn, h1, h2]
  · rw [getVariable_append]
    cases h : getVariable vars n <;> simp [getVariable]
  · simp [countNamed, List.filter_append]

/-- Witness for the amended C3: `x` is already bound to `0`; after assigning
`1` and then `2` the lookup still gives `0`, and three entries are named `x`. -/
theorem assignVariable_twice_first_wins_witness :
    (assignVariable [⟨"x".toList, "0".toList⟩] "x".toList "1".toList).bind
        (fun s => assignVariable s "x".toList "2".toList)
        = some ([⟨"x".toList, "0".toList⟩] ++ [⟨"x".toList, "1".toList⟩, ⟨"x".toList, "2".toList⟩])
      ∧ getVariable ([⟨"x".toList, "0".toList⟩]
          ++ [⟨"x".toList, "1".toList⟩, ⟨"x".toList, "2".toList⟩]) "x".toList
        = some ((getVariable [⟨"x".toList, "0".toList⟩] "x".toList).getD "1".toList)
      ∧ countNamed ([⟨"x".toList, "0".toList⟩]
          ++ [⟨"x".toList, "1".toList⟩, ⟨"x".toList, "2".toList⟩]) "x".toList
        = countNamed [⟨"x".toList, "0".toList⟩] "x".toList + 2 :=
  assignVariable_twice_first_wins [⟨"x".toList, "0".toList⟩] "x".toList "1".toList "2".toList
    (by decide) (by decide) (by decide)

/-- C4: the text `echo "" "a;b" c` has no semicolon outside a quoted span (the
one at index 10 follows three double quotes), yet `extractCommands` ends a
statement there and returns two statements: after a double quote the loop
steps to the next character without testing it for a quote, so the second
quote of `""` does not toggle the state. -/
theorem extractCommands_splits_inside_quotes :
    extractCommands 20 ("echo \"\" \"a;b\" c".toList ++ [NUL])
        = .ok ⟨["echo \" a".toList, "b c".toList],
            "echo \"\" \"a".toList ++ NUL :: "b\" c".toList ++ [NUL]⟩
      ∧ "echo \"\" \"a;b\" c".toList[10]? = some SEMI
      ∧ insideQuotes "echo \"\" \"a;b\" c".toList 10 = true
      ∧ unquotedSemicolons "echo \"\" \"a;b\" c".toList = 0 := by
  decide

/-- C5: on an array holding a quote-free text `s` and its terminator, where
`s` has at most 10 non-empty segments between semicolons and every segment is
shorter than `MAX_COMMAND_LENGTH`, `extractCommands` returns (with enough
fuel) exactly the non-empty segments of `s` split at every semicolon, in
order; the returned count is their number and no returned statement is
empty. -/
theorem extractCommands_plain_eq_splitStatements (s tail : List Char) (fuel : Nat)
    (hs : ∀ c ∈ s, c ≠ NUL ∧ c ≠ DQUOTE)
    (hcount : (splitStatements s).length ≤ 10)
    (hlen : ∀ seg ∈ s.splitOn SEMI, seg.length < MAX_COMMAND_LENGTH)
    (hfuel : s.length + 1 ≤ fuel) :
    ∃ out, extractCommands fuel (s ++ NUL :: tail) = .ok out
      ∧ out.commands = splitStatements s
      ∧ out.commands.length = (splitStatements s).length
      ∧ ∀ st ∈ out.commands, st ≠ [] := by
  have hgo : s.splitOn SEMI = List.splitOnP.go (fun c => c == SEMI) s ([] : List Char).reverse :=
    rfl
  obtain ⟨input1, h⟩ := extractCommandsLoop_plain tail s [] [] [] fuel hs (by simp)
    (by rw [← hgo]; exact hlen)
    (by
      rw [← hgo]
      have : (splitStatements s).length < MAX_NUM_COMMANDS :=
        Nat.lt_of_le_of_lt hcount (by decide)
      simpa [splitStatements] using this)
    hfuel
  refine ⟨⟨splitStatements s, input1⟩, ?_, rfl, rfl, ?_⟩
  · unfold extractCommands
    rw [← hgo] at h
    simpa [splitStatements] using h
  · intro st hst
    simp only [splitStatements, List.mem_filter] at hst
    intro e
    simp [e] at hst

/-- Witness for C5: `ls; pwd;;echo a;` splits into `ls`, ` pwd` and `echo a`. -/
theorem extractCommands_plain_eq_splitStatements_witness :
    ∃ out, extractCommands 20 ("ls; pwd;;echo a;".toList ++ NUL :: [NUL]) = .ok out
      ∧ out.commands = splitStatements "ls; pwd;;echo a;".toList
      ∧ out.commands.length = (splitStatements "ls; pwd;;echo a;".toList).length
      ∧ ∀ st ∈ out.commands, st ≠ [] :=
  extractCommands_plain_eq_splitStatements "ls; pwd;;echo a;".toList [NUL] 20
    (by decide) (by decide) (by decide) (by decide)

/-- C6: for a statement `s` with `m` pipe signs, `m + 1 ≤ MAX_NUM_COMMANDS`,
`countPipes` returns `m` and leaves in the array the `m + 1` segments of `s`
between the pipe signs, in order and possibly empty, followed by end markers
in all remaining slots; the segments joined with the pipe sign give `s`
back. -/
theorem countPipes_eq_splitOn (s tail : List Char) (commands : List (Option (List Char)))
    (hs : NUL ∉ s) (hc : commands.length = MAX_NUM_COMMANDS)
    (hm : s.count PIPE + 1 ≤ MAX_NUM_COMMANDS) :
    countPipes (s ++ NUL :: tail) commands
        = some (s.count PIPE, (s.splitOn PIPE).map some
            ++ List.replicate (MAX_NUM_COMMANDS - (s.count PIPE + 1)) none)
      ∧ (s.splitOn PIPE).length = s.count PIPE + 1
      ∧ [PIPE].intercalate (s.splitOn PIPE) = s := by
  have hgo : s.splitOn PIPE = List.splitOnP.go (fun c => c == PIPE) s ([] : List Char).reverse :=
    rfl
  have hlen : (s.splitOn PIPE).length = s.count PIPE + 1 := by
    rw [hgo, splitOnP_go_length]
    rfl
  refine ⟨?_, hlen, List.intercalate_splitOn s PIPE⟩
  have hstr : strlen (s ++ NUL :: tail) 0 = some s.length := strlen_stop [] s tail hs
  have hsn : ∀ c ∈ s, c ≠ NUL := fun c hc e => hs (e ▸ hc)
  have hloop := countPipesLoop_spec tail s [] [] [] commands hsn
    (by rw [← hgo, hlen, hc]; exact hm)
  simp only [List.nil_append, List.length_nil, Nat.add_zero] at hloop
  rw [← hgo] at hloop
  unfold countPipes
  simp only [hstr, hloop, List.take_left]
  have hclear : clearFrom (s.count PIPE + 1) 0
      ((s.splitOn PIPE).map some ++ commands.drop (s.splitOn PIPE).length)
      = (s.splitOn PIPE).map some
          ++ List.replicate (MAX_NUM_COMMANDS - (s.count PIPE + 1)) none := by
    rw [clearFrom_append, clearFrom_keep _ _ 0 (by simp [hlen]),
      clearFrom_clear _ _ _ (by simp [hlen]) (by simp [hlen, hc]; omega)]
    simp [hlen, hc]
  rw [hclear]
  rfl

/-- Witness for C6: `ls| wc||` has three pipe signs and the four stages `ls`,
` wc` and two empty ones. -/
theorem countPipes_eq_splitOn_witness :
    countPipes ("ls| wc||".toList ++ NUL :: []) (List.replicate 11 (some []))
        = some ("ls| wc||".toList.count PIPE, ("ls| wc||".toList.splitOn PIPE).map some
            ++ List.replicate (MAX_NUM_COMMANDS - ("ls| wc||".toList.count PIPE + 1)) none)
      ∧ ("ls| wc||".toList.splitOn PIPE).length = "ls| wc||".toList.count PIPE + 1
      ∧ [PIPE].intercalate ("ls| wc||".toList.splitOn PIPE) = "ls| wc||".toList :=
  countPipes_eq_splitOn "ls| wc||".toList [] (List.replicate 11 (some []))
    (by decide) (by decide) (by decide)

/-- C7: for the stage `p "a b" c` the argument list has two entries, `p`
and `a b  c`: the token that closes the span is fetched with the double quote
as delimiter, so it never ends with one, `isInQuotes` stays set, and the
token after the span is appended to the same slot instead of a new one.
The input line `p ""a b"" c` reaches `parseCommand` as this stage. -/
theorem parseCommand_quoted_span_never_closes :
    ((parseCommand 10 ("p \"a b\" c".toList ++ [NUL]) (List.replicate 11 none) false [] 0).result.map
        argv) = some ["p".toList, "a b  c".toList]
      ∧ ((parseCommand 10 ("p \"a b\" c".toList ++ [NUL]) (List.replicate 11 none) false [] 0).result.map
        argv) ≠ some ["p".toList, "a b".toList, "c".toList]
      ∧ (extractCommands 20 ("p \"\"a b\"\" c".toList ++ [NUL])).result.map (fun e => e.commands)
        = some ["p \"a b\" c".toList] := by
  decide

/-- C8: for the stage `echo "a=b"` the token `"a=b"`, whose equals sign lies
between its quotes, is not appended to the argument list; it is committed to
the store as the name `"a` with the value `b"`, because `isInQuotes` is only
set after the token has been tested for an equals sign.  The input line
`echo ""a=b""` reaches `parseCommand` as this stage. -/
theorem parseCommand_quoted_equals_assigns :
    ((parseCommand 10 ("echo \"a=b\"".toList ++ [NUL]) (List.replicate 11 none) false [] 0).result.map
        (fun p => (argv p, p.vars))) = some (["echo".toList], [⟨"\"a".toList, "b\"".toList⟩])
      ∧ (extractCommands 20 ("echo \"\"a=b\"\"".toList ++ [NUL])).result.map (fun e => e.commands)
        = some ["echo \"a=b\"".toList] := by
  decide

/-- C10 fails on its example: for the stage `sleep 5 &` the flag is set, but
the argument list has three entries, `sleep`, `5` and the empty string; the
command does not get the single argument `5`. -/
theorem parseCommand_lone_ampersand_counterexample :
    ((parseCommand 10 ("sleep 5 &".toList ++ [NUL]) (List.replicate 11 none) false [] 0).result.map
        (fun p => (argv p, p.bg))) = some (["sleep".toList, "5".toList, []], true)
      ∧ ((parseCommand 10 ("sleep 5 &".toList ++ [NUL]) (List.replicate 11 none) false [] 0).result.map
        (fun p => (argv p, p.bg))) ≠ some (["sleep".toList, "5".toList], true)
      ∧ tokens "sleep 5 &".toList = ["sleep".toList, "5".toList, "&".toList] := by
  decide

/-- C10 as amended: for every stage without quotes and equals signs, with no
`cd` token and at most 10 tokens, `parseCommand` sets the flag when the last
token ends with an ampersand and leaves it as it was otherwise, and the
argument list is the token list with that one ampersand removed from the last
token, which stays in the list even when nothing else is left of it. -/
theorem parseCommand_background (s tail : List Char) (args : List (Option Nat)) (bg : Bool)
    (vars : List Variable) (ac fuel : Nat)
    (hs : ∀ c ∈ s, c ≠ NUL ∧ c ≠ EQUALS ∧ c ≠ DQUOTE)
    (hcd : CD ∉ tokens s) (hlen : (tokens s).length ≤ 10)
    (hargs : args.length = MAX_NUM_ARGS) (hfuel : (tokens s).length + 1 ≤ fuel) :
    ∃ p, parseCommand fuel (s ++ NUL :: tail) args bg vars ac = .ok p
      ∧ p.bg = (bg || endsWithAmp (tokens s))
      ∧ argv p = stripAmp (tokens s)
      ∧ (argv p).length = (tokens s).length := by
  have htake : (tokens s).takeWhile (fun t => t != CD) = tokens s := by
    rw [List.takeWhile_eq_self_iff]
    intro t ht
    have : t ≠ CD := fun e => hcd (e ▸ ht)
    simpa using this
  obtain ⟨p, hp, hargv, hbg, _, _⟩ := parseCommand_plain s tail args bg vars ac fuel hs hargs
    (by rw [htake]; exact Nat.lt_of_le_of_lt hlen (by decide)) (by rw [htake]; exact hfuel)
  rw [htake] at hargv hbg
  refine ⟨p, hp, hbg, hargv, ?_⟩
  rw [hargv]
  unfold stripAmp
  cases h : (tokens s).getLast? with
  | none => rfl
  | some t =>
    simp only
    split
    · have hne : tokens s ≠ [] := by
        intro e; rw [e] at h; simp at h
      simp [List.length_dropLast]
      have := List.length_pos.mpr hne
      omega
    · rfl

/-- Witness for the amended C10: `sleep 5 &` sets the flag and passes on
`sleep`, `5` and the empty string. -/
theorem parseCommand_background_witness :
    ∃ p, parseCommand 4 ("sleep 5 &".toList ++ NUL :: []) (List.replicate 11 none) false [] 0
        = .ok p
      ∧ p.bg = (false || endsWithAmp (tokens "sleep 5 &".toList))
      ∧ argv p = stripAmp (tokens "sleep 5 &".toList)
      ∧ (argv p).length = (tokens "sleep 5 &".toList).length :=
  parseCommand_background "sleep 5 &".toList [] (List.replicate 11 none) false [] 0 4
    (by decide) (by decide) (by decide) (by decide) (by decide)

/-- C11: for the stage `>out.txt` the function `writeCommandToFile` returns
0, the index of the greater-than sign, and `executeCommand`, which takes 0 for
"none found", opens no file and hands the whole text to `execvp`; for
`ls >out.txt` it opens `out.txt`.  The last part is the run of `runCommands`
on the input line `>out.txt`: no `open`, no `dup2`. -/
theorem executeCommand_leading_redirect_ignored :
    writeCommandToFile (">out.txt".toList ++ [NUL]) = some 0
      ∧ (executeCommand 0 0 .null 5 (freshExec [">out.txt".toList])).result.map
          (fun e => (opened e.trace, launched e.trace))
        = some ([], [[">out.txt".toList]])
      ∧ (executeCommand 0 0 .null 5 (freshExec ["ls >out.txt".toList])).result.map
          (fun e => (opened e.trace, launched e.trace))
        = some (["out.txt".toList], [["ls".toList]])
      ∧ ((extractCommands 20 (">out.txt".toList ++ [NUL])).result.bind (fun e =>
          (runCommands 0 20 (arrayOf e) (List.replicate 11 none) (List.replicate 11 none)
            [] 0 0).result)).map (fun r => r.exec.trace)
        = some [.sigtstpDefault, .execvp [">out.txt".toList]] := by
  decide

/-- C12: for the stage `echo hi > out.txt`, held in an array of its length
plus one, the loop that copies the file name reads index 18, one past the
terminator at index 17, and `executeCommand` has no defined result (it counts
the characters stored, and the blank after the greater-than sign is not
stored).  With one more byte in the array the name is `out.txt` and the text
handed on is `echo hi `.  The last part is the run of `runCommands` on the
input line `echo hi > out.txt`, where `countPipes` allocates the stage. -/
theorem executeCommand_redirect_reads_past_terminator :
    writeCommandToFile ("echo hi > out.txt".toList ++ [NUL]) = some 8
      ∧ redirect ("echo hi > out.txt".toList ++ [NUL]) 8 = none
      ∧ executeCommand 0 0 .null 5 (freshExec ["echo hi > out.txt".toList]) = .undefined
      ∧ (redirect ("echo hi > out.txt".toList ++ [NUL, Char.ofNat 120]) 8).map
          (fun r => (r.1, cstr r.2 0)) = some ("out.txt".toList, "echo hi ".toList)
      ∧ (extractCommands 20 ("echo hi > out.txt".toList ++ [NUL])).result.map (fun e =>
          runCommands 0 20 (arrayOf e) (List.replicate 11 none) (List.replicate 11 none)
            [] 0 0) = some .undefined := by
  decide

/-- C13: in the process that runs `runCommands` the global `pid` is 0, so
`executeCommand` reaches `execvp` at the first stage that is not `bg` and
nothing is launched after it: the line `ls | wc` launches `ls` alone, and so
does the line `ls; pwd`, although each has two stages. -/
theorem runCommands_launches_first_stage_only :
    ((extractCommands 20 ("ls | wc".toList ++ [NUL])).result.bind (fun e =>
        (runCommands 0 20 (arrayOf e) (List.replicate 11 none) (List.replicate 11 none)
          [] 0 0).result)).map (fun r => (launched r.exec.trace, r.exec.running))
        = some ([["ls".toList]], false)
      ∧ stagesOf "ls | wc".toList = ["ls ".toList, " wc".toList]
      ∧ ((extractCommands 20 ("ls; pwd".toList ++ [NUL])).result.bind (fun e =>
        (runCommands 0 20 (arrayOf e) (List.replicate 11 none) (List.replicate 11 none)
          [] 0 0).result)).map (fun r => (launched r.exec.trace, r.exec.running))
        = some ([["ls".toList]], false)
      ∧ stagesOf "ls; pwd".toList = ["ls".toList, " pwd".toList] := by
  decide

/-- C14: for the stage `1 2 3 4 5 6 7 8 9 10 11 12` of twelve tokens
`parseCommand` has no defined result: after `args[0] = NULL` and the `break`,
`i` is 11 and `args[i] = NULL` is a store outside the array of 11 slots. -/
theorem parseCommand_twelve_tokens_undefined :
    parseCommand 20 ("1 2 3 4 5 6 7 8 9 10 11 12".toList ++ [NUL]) (List.replicate 11 none)
        false [] 0 = .undefined
      ∧ (tokens "1 2 3 4 5 6 7 8 9 10 11 12".toList).length = 12
      ∧ (parseLoop 20 ⟨"1 2 3 4 5 6 7 8 9 10 11 12".toList ++ [NUL], List.replicate 11 none,
          0, false, 0, [], 0⟩).result.map (fun st => (st.i, st.args.length, st.args[0]?))
        = some (11, 11, some none) := by
  decide

set_option maxRecDepth 20000 in
/-- C15: on the lines "", 515 times `x`, `ls` the specification's session does
not end, since only two lines count as empty.  The code ends it at the third
call of `handleInput` with `ls` still unread: `fgets` takes the 515 characters
without the line feed, the text is longer than `MAX_COMMAND_LENGTH` and counts
as empty, and the line feed left behind is read as one more empty line.
Likewise on "", "", 511 times `x`, `ls`: with its line feed the third line has
512 characters and counts as empty. -/
theorem handleInput_counts_long_line_twice :
    specExitAfter [[], List.replicate 515 (Char.ofNat 120), "ls".toList] 0 0 = none
      ∧ readUntilExit 5
          ⟨stdinOf [[], List.replicate 515 (Char.ofNat 120), "ls".toList],
            List.replicate 516 NUL, 0⟩ 0
        = some (3, stdinOf ["ls".toList])
      ∧ specExitAfter [[], [], List.replicate 511 (Char.ofNat 120), "ls".toList] 0 0 = none
      ∧ readUntilExit 5
          ⟨stdinOf [[], [], List.replicate 511 (Char.ofNat 120), "ls".toList],
            List.replicate 516 NUL, 0⟩ 0
        = some (3, stdinOf ["ls".toList]) := by
  decide

/-- C17: the line `bg| bg` is a pipeline of the two stages `bg` and ` bg` with
one pipe.  With `pid` 0, as in every run of `runCommands`, `executeCommand`
goes through both stages and returns; its trace is two `kill` calls and no
`close`, because the `bg` branch goes on to the next stage before the `close`
calls of the ordinary branch.  `runCommands` then returns with the pipe it
created never closed, so neither `pipes[0]` nor `pipes[1]` is closed once.
The same branch leaves `pipes[0]` open for `ls | bg` when `pid` is not 0, and
with `pid` 0 the pipeline `ls | wc` reaches `execvp` with nothing closed. -/
theorem executeCommand_leaves_pipe_open :
    (executeCommand 0 1 .live 5 (freshExec [BG, SPACE :: BG])).result.map
        (fun e => (e.trace, e.running)) = some ([.kill, .kill], true)
      ∧ ((extractCommands 20 ("bg| bg".toList ++ [NUL])).result.bind (fun e =>
          (runCommands 0 20 (arrayOf e) (List.replicate 11 none) (List.replicate 11 none)
            [] 0 0).result)).map (fun r => (r.exec.trace, closed r.exec.trace, r.exec.running))
        = some ([.pipe 0, .kill, .kill], [], true)
      ∧ (executeCommand 1 1 .live 5 (freshExec ["ls ".toList, " bg".toList])).result.map
        (fun e => (closed e.trace, e.running)) = some ([1], true)
      ∧ (executeCommand 0 1 .live 5 (freshExec ["ls ".toList, " wc".toList])).result.map
        (fun e => (closed e.trace, launched e.trace)) = some ([], [["ls".toList]]) := by
  decide

/-- C18: for the input `1;2;3;4;5;6;7;8;9;a;b` of eleven statements
`extractCommands` has no defined result: the count is tested against
`MAX_NUM_COMMANDS` only after a semicolon, the last statement is stored at
index 10, and the end marker goes to index 11 of the array of 11 slots.  With
a semicolon at the end the same input ends in the fatal error. -/
theorem extractCommands_eleven_statements_undefined :
    extractCommands 30 ("1;2;3;4;5;6;7;8;9;a;b".toList ++ [NUL]) = .undefined
      ∧ (splitStatements "1;2;3;4;5;6;7;8;9;a;b".toList).length = 11
      ∧ extractCommands 30 ("1;2;3;4;5;6;7;8;9;a;b;".toList ++ [NUL])
        = .fatal .tooManyCommands := by
  decide

/-- C19: for the stage `1 2 3 4 5 6 7 8 9 10 11` of eleven tokens the loop of
`parseCommand` fills all 11 slots and ends with `i = 11`, and `args[i] = NULL`
is a store at index 11, outside the array: there is no defined result. -/
theorem parseCommand_eleven_tokens_undefined :
    parseCommand 20 ("1 2 3 4 5 6 7 8 9 10 11".toList ++ [NUL]) (List.replicate 11 none)
        false [] 0 = .undefined
      ∧ (tokens "1 2 3 4 5 6 7 8 9 10 11".toList).length = 11
      ∧ (parseLoop 20 ⟨"1 2 3 4 5 6 7 8 9 10 11".toList ++ [NUL], List.replicate 11 none,
          0, false, 0, [], 0⟩).result.map
          (fun st => (st.i, st.args.length, st.args.all (fun o => o.isSome)))
        = some (11, 11, true) := by
  decide

/-- C20 fails for a long value: assigning a value of 100 characters to `x` in
the empty store writes past the array `value` of the entry, and there is no
store after it in which `x` is bound to that value. -/
theorem assignVariable_long_value_counterexample :
    getVariable [] "x".toList = none
      ∧ ¬ ∃ vars1, assignVariable [] "x".toList (List.replicate 100 (Char.ofNat 97)) = some vars1
          ∧ getVariable vars1 "x".toList = some (List.replicate 100 (Char.ofNat 97)) := by
  refine ⟨rfl, ?_⟩
  rintro ⟨vars1, h, _⟩
  have : assignVariable [] "x".toList (List.replicate 100 (Char.ofNat 97)) = none := by
    decide
  rw [this] at h
  exact absurd h (by simp)

/-- C20 as amended: for a name and a value shorter than 100 characters, the
name not found before, `assignVariable` succeeds; afterwards the lookup of `m`
gives the new value when `m` is the name and what it gave before otherwise,
and a lookup finds nothing exactly when no entry of the store has the name. -/
theorem assignVariable_fresh_point_update (vars : List Variable) (n v m : List Char)
    (hfresh : getVariable vars n = none)
    (hn : n.length < MAX_VAR_NAME_LENGTH) (hv : v.length < MAX_VAR_VALUE_LENGTH) :
    ∃ vars1, assignVariable vars n v = some vars1
      ∧ getVariable vars1 m = (if m = n then some v else getVariable vars m)
      ∧ (∀ k, getVariable vars1 k = none ↔ ∀ e ∈ vars1, e.name ≠ k)
      ∧ (∀ k, getVariable vars k = none ↔ ∀ e ∈ vars, e.name ≠ k) := by
  refine ⟨vars ++ [⟨n, v⟩], by simp [assignVariable, hn, hv], ?_,
    fun k => getVariable_none_iff _ k, fun k => getVariable_none_iff _ k⟩
  rw [getVariable_append]
  by_cases h : m = n
  · subst h
    simp [hfresh, getVariable]
  · have h2 : ¬ n = m := fun e => h e.symm
    cases hm : getVariable vars m <;> simp [getVariable, h, h2]

/-- Witness for the amended C20: with `y` bound to `1`, assigning `2` to `x`
leaves the lookup of `y` at `1`. -/
theorem assignVariable_fresh_point_update_witness :
    ∃ vars1, assignVariable [⟨"y".toList, "1".toList⟩] "x".toList "2".toList = some vars1
      ∧ getVariable vars1 "y".toList
        = (if "y".toList = "x".toList then some "2".toList
            else getVariable [⟨"y".toList, "1".toList⟩] "y".toList)
      ∧ (∀ k, getVariable vars1 k = none ↔ ∀ e ∈ vars1, e.name ≠ k)
      ∧ (∀ k, getVariable [⟨"y".toList, "1".toList⟩] k = none
          ↔ ∀ e ∈ [(⟨"y".toList, "1".toList⟩ : Variable)], e.name ≠ k) :=
  assignVariable_fresh_point_update [⟨"y".toList, "1".toList⟩] "x".toList "2".toList
    "y".toList (by decide) (by decide) (by decide)

end MiniShell
